import Mathlib

/-!
Loop kernels of `hpx::parallel::util` (src/loop.hpp).

A shallow embedding of the loop execution kernels of `loop.hpp` and the
properties its specification states about them.

* Iterators are an abstract type with the two operations the generic kernels
  use: `operator++` (`IterOps.next`) and `operator!=` (`IterOps.ne`).
* A callback is a function of its arguments, of the cancellation token it may
  read, and of the user-visible state; it yields an `Outcome`: the new state,
  whether it called `cancel()` on the token, and whether it returned or raised.
* A kernel is a function on a `World`: user state, token, and the trace of the
  callback invocations made so far.  A `for (; it != last; ++it)` loop has no
  bound of its own, so bound-driven loops take fuel (one unit per evaluation
  of the loop condition) and yield `none` when it runs out; count-driven loops
  are total.
* The chunked prefetch iterator, its context and the specialised `loop_n` are
  embedded with `std::size_t` arithmetic modulo `2 ^ 64`; the variants of
  `Untitled Folder/l.hpp` and `Untitled Folder/pref.hpp` are embedded where a
  property is about them.
-/

namespace hpx.parallel.util

/-! ## Data model -/

/-- Modelled from the spec: the cancellation token of
`hpx/parallel/util/cancellation_token.hpp`, which is not among the sources:
a shared boolean flag read by `was_cancelled()` and set, for good, by
`cancel()`. -/
structure CancelToken where
  cancelled : Bool
  deriving DecidableEq

/-- Reads the flag: `tok.was_cancelled()`. -/
def CancelToken.was_cancelled (t : CancelToken) : Bool := t.cancelled

/-- Sets the flag: `tok.cancel()`; idempotent. -/
def CancelToken.cancel (_t : CancelToken) : CancelToken := ⟨true⟩

/-- How a call ended: it returned a value, or it raised a failure. -/
inductive Completion (ε α : Type) where
  | normal (a : α)
  | raised (e : ε)
  deriving DecidableEq

/-- What one invocation of a user callback did: the user-visible state it
left, whether it called `cancel()` on the token, and how it ended. -/
structure Outcome (ε σ α : Type) where
  user : σ
  cancel : Bool
  result : Completion ε α

/-- The state a kernel runs in: the user-visible state, the cancellation
token, and the trace of callback invocations (oldest first). -/
structure World (σ κ : Type) where
  user : σ
  tok : CancelToken
  trace : List κ
  deriving DecidableEq

/-- The world after a callback invocation recorded as `ev` with outcome `o`. -/
def World.after {ε σ κ α : Type} (w : World σ κ) (ev : κ) (o : Outcome ε σ α) :
    World σ κ :=
  { user := o.user
    tok := if o.cancel then w.tok.cancel else w.tok
    trace := w.trace ++ [ev] }

/-- The two operations the generic kernels use on an iterator type:
`operator++` and `operator!=`. -/
structure IterOps (Iter : Type) where
  next : Iter → Iter
  ne : Iter → Iter → Bool

/-- The iterator `it` after `n` applications of `operator++`. -/
def IterOps.advance {Iter : Type} (ops : IterOps Iter) : Nat → Iter → Iter
  | 0, it => it
  | n + 1, it => ops.advance n (ops.next it)

/-- Callback invocations of the single-range kernels: `f(it)` and
`cleanup(it)`. -/
inductive Call (Iter : Type) where
  | f (it : Iter)
  | cleanup (it : Iter)
  deriving DecidableEq

/-- Callback invocations of the two-iterator (source, destination) kernels:
`f(it, dest)` and `cleanup(dest)`. -/
inductive Call2 (Iter FwdIter : Type) where
  | f (it : Iter) (dest : FwdIter)
  | cleanup (dest : FwdIter)
  deriving DecidableEq

/-- Callback invocations of `loop_idx_n`: `f(*it, base_idx)`. -/
inductive CallIdx (Elem : Type) where
  | f (x : Elem) (idx : Nat)
  deriving DecidableEq

/-- Callback invocations of `accumulate_n`: `f(init, *it)`. -/
inductive CallAcc (T Elem : Type) where
  | f (acc : T) (x : Elem)
  deriving DecidableEq

/-- A callback taking one iterator: `f(it)` or `cleanup(it)`. -/
abbrev Callback (ε σ Iter : Type) := Iter → CancelToken → σ → Outcome ε σ Unit

/-- A callback taking a source and a destination iterator: `f(it, dest)`. -/
abbrev Callback2 (ε σ Iter FwdIter : Type) :=
  Iter → FwdIter → CancelToken → σ → Outcome ε σ Unit

/-- Width of `std::size_t`. -/
def SIZE_BITS : Nat := 64

/-- One more than the largest `std::size_t`. -/
def SIZE_MOD : Nat := 2 ^ SIZE_BITS

/-! ## Basic loop kernels -/

namespace detail

/-- `detail::loop::call(it, end, f)`:
`for (; it != end; ++it) f(it); return it;` -/
def loop.call {ε σ Iter : Type} (ops : IterOps Iter) (f : Callback ε σ Iter) :
    Nat → Iter → Iter → World σ (Call Iter) →
      Option (Completion ε Iter × World σ (Call Iter))
  | 0, _, _, _ => none
  | fuel + 1, it, last, w =>
    if ops.ne it last then
      match (f it w.tok w.user).result with
      | .raised e => some (.raised e, w.after (.f it) (f it w.tok w.user))
      | .normal _ =>
        loop.call ops f fuel (ops.next it) last (w.after (.f it) (f it w.tok w.user))
    else some (.normal it, w)

/-- `detail::loop::call(it, end, tok, func)`:
`for (; it != end; ++it) { if (tok.was_cancelled()) break; func(it); } return it;` -/
def loop.call_tok {ε σ Iter : Type} (ops : IterOps Iter) (f : Callback ε σ Iter) :
    Nat → Iter → Iter → World σ (Call Iter) →
      Option (Completion ε Iter × World σ (Call Iter))
  | 0, _, _, _ => none
  | fuel + 1, it, last, w =>
    if ops.ne it last then
      if w.tok.was_cancelled then some (.normal it, w)
      else
        match (f it w.tok w.user).result with
        | .raised e => some (.raised e, w.after (.f it) (f it w.tok w.user))
        | .normal _ =>
          loop.call_tok ops f fuel (ops.next it) last
            (w.after (.f it) (f it w.tok w.user))
    else some (.normal it, w)

/-- `detail::loop_n<Iterator>::call(it, count, f)` (generic template):
`for (; count != 0; (void) --count, ++it) f(it); return it;` -/
def loop_n.call {ε σ Iter : Type} (ops : IterOps Iter) (f : Callback ε σ Iter) :
    Iter → Nat → World σ (Call Iter) → Completion ε Iter × World σ (Call Iter)
  | it, 0, w => (.normal it, w)
  | it, count + 1, w =>
    match (f it w.tok w.user).result with
    | .raised e => (.raised e, w.after (.f it) (f it w.tok w.user))
    | .normal _ =>
      loop_n.call ops f (ops.next it) count (w.after (.f it) (f it w.tok w.user))

/-- `detail::loop_n<Iterator>::call(it, count, tok, f)` (generic template):
`for (; count != 0; (void) --count, ++it) { if (tok.was_cancelled()) break; f(it); }
return it;` -/
def loop_n.call_tok {ε σ Iter : Type} (ops : IterOps Iter) (f : Callback ε σ Iter) :
    Iter → Nat → World σ (Call Iter) → Completion ε Iter × World σ (Call Iter)
  | it, 0, w => (.normal it, w)
  | it, count + 1, w =>
    if w.tok.was_cancelled then (.normal it, w)
    else
      match (f it w.tok w.user).result with
      | .raised e => (.raised e, w.after (.f it) (f it w.tok w.user))
      | .normal _ =>
        loop_n.call_tok ops f (ops.next it) count
          (w.after (.f it) (f it w.tok w.user))

end detail

/-- `loop(begin, end, f)`: forwards to `detail::loop<cat>::call`. -/
def loop {ε σ Iter : Type} (ops : IterOps Iter) (fuel : Nat) (begin_ end_ : Iter)
    (f : Callback ε σ Iter) (w : World σ (Call Iter)) :
    Option (Completion ε Iter × World σ (Call Iter)) :=
  detail.loop.call ops f fuel begin_ end_ w

/-- `loop(begin, end, tok, f)`: forwards to the token overload of
`detail::loop<cat>::call`. -/
def loop_tok {ε σ Iter : Type} (ops : IterOps Iter) (fuel : Nat) (begin_ end_ : Iter)
    (f : Callback ε σ Iter) (w : World σ (Call Iter)) :
    Option (Completion ε Iter × World σ (Call Iter)) :=
  detail.loop.call_tok ops f fuel begin_ end_ w

/-- `loop_n(it, count, f)`: forwards to `detail::loop_n<Iter>::call`. -/
def loop_n {ε σ Iter : Type} (ops : IterOps Iter) (it : Iter) (count : Nat)
    (f : Callback ε σ Iter) (w : World σ (Call Iter)) :
    Completion ε Iter × World σ (Call Iter) :=
  detail.loop_n.call ops f it count w

/-- `loop_n(it, count, tok, f)`: forwards to the token overload of
`detail::loop_n<Iter>::call`. -/
def loop_n_tok {ε σ Iter : Type} (ops : IterOps Iter) (it : Iter) (count : Nat)
    (f : Callback ε σ Iter) (w : World σ (Call Iter)) :
    Completion ε Iter × World σ (Call Iter) :=
  detail.loop_n.call_tok ops f it count w

/-! ## Cleanup-aware loop kernels

Each kernel is a `try` block around the traversal and a `catch (...)` handler
that runs the rollback loop and rethrows.  The iterator variables are declared
outside the `try`, so the handler sees the values they had when the failure
was raised: a `try` block yields the failure caught (if any), the iterator the
handler reads, and the world. -/

namespace detail

/-- The rollback loop of every handler:
`for (; base != it; ++base) cleanup(base);`.  It yields the failure raised by
`cleanup`, if any; `ev` is how an invocation of `cleanup` is recorded. -/
def cleanup_loop {ε σ κ Iter : Type} (ops : IterOps Iter) (ev : Iter → κ)
    (cleanup : Callback ε σ Iter) :
    Nat → Iter → Iter → World σ κ → Option (Option ε × World σ κ)
  | 0, _, _, _ => none
  | fuel + 1, base, it, w =>
    if ops.ne base it then
      match (cleanup base w.tok w.user).result with
      | .raised e => some (some e, w.after (ev base) (cleanup base w.tok w.user))
      | .normal _ =>
        cleanup_loop ops ev cleanup fuel (ops.next base) it
          (w.after (ev base) (cleanup base w.tok w.user))
    else some (none, w)

/-- The handler `catch (...) { <rollback loop>; throw; }` entered with the
failure `e`: a failure raised by `cleanup` leaves the handler in place of `e`,
otherwise `throw;` rethrows `e`. -/
def catch_all {ε σ κ Iter : Type} (ops : IterOps Iter) (ev : Iter → κ)
    (cleanup : Callback ε σ Iter) (fuel : Nat) (e : ε) (base it : Iter)
    (w : World σ κ) : Option (Completion ε Iter × World σ κ) :=
  match cleanup_loop ops ev cleanup fuel base it w with
  | none => none
  | some (some e', w') => some (.raised e', w')
  | some (none, w') => some (.raised e, w')

/-- The `try` block of `detail::loop_with_cleanup::call(it, last, f, cleanup)`:
`for (; it != last; ++it) f(it); return it;` -/
def loop_with_cleanup.try_block {ε σ Iter : Type} (ops : IterOps Iter)
    (f : Callback ε σ Iter) :
    Nat → Iter → Iter → World σ (Call Iter) →
      Option (Option ε × Iter × World σ (Call Iter))
  | 0, _, _, _ => none
  | fuel + 1, it, last, w =>
    if ops.ne it last then
      match (f it w.tok w.user).result with
      | .raised e => some (some e, it, w.after (.f it) (f it w.tok w.user))
      | .normal _ =>
        loop_with_cleanup.try_block ops f fuel (ops.next it) last
          (w.after (.f it) (f it w.tok w.user))
    else some (none, it, w)

/-- `detail::loop_with_cleanup::call(it, last, f, cleanup)`:
`FwdIter base = it; try { ... } catch (...) { for (; base != it; ++base)
cleanup(base); throw; }` -/
def loop_with_cleanup.call {ε σ Iter : Type} (ops : IterOps Iter) (fuel : Nat)
    (it last : Iter) (f cleanup : Callback ε σ Iter) (w : World σ (Call Iter)) :
    Option (Completion ε Iter × World σ (Call Iter)) :=
  match loop_with_cleanup.try_block ops f fuel it last w with
  | none => none
  | some (none, it', w') => some (.normal it', w')
  | some (some e, it', w') => catch_all ops Call.cleanup cleanup fuel e it it' w'

/-- The `try` block of the destination overload
`detail::loop_with_cleanup::call(it, last, dest, f, cleanup)`:
`for (; it != last; (void) ++it, ++dest) f(it, dest); return dest;` -/
def loop_with_cleanup.try_block_dest {ε σ Iter FwdIter : Type} (ops : IterOps Iter)
    (dops : IterOps FwdIter) (f : Callback2 ε σ Iter FwdIter) :
    Nat → Iter → Iter → FwdIter → World σ (Call2 Iter FwdIter) →
      Option (Option ε × FwdIter × World σ (Call2 Iter FwdIter))
  | 0, _, _, _, _ => none
  | fuel + 1, it, last, dest, w =>
    if ops.ne it last then
      match (f it dest w.tok w.user).result with
      | .raised e =>
        some (some e, dest, w.after (.f it dest) (f it dest w.tok w.user))
      | .normal _ =>
        loop_with_cleanup.try_block_dest ops dops f fuel (ops.next it) last
          (dops.next dest) (w.after (.f it dest) (f it dest w.tok w.user))
    else some (none, dest, w)

/-- `detail::loop_with_cleanup::call(it, last, dest, f, cleanup)`:
`FwdIter base = dest; try { ... } catch (...) { for (; base != dest; ++base)
cleanup(base); throw; }` -/
def loop_with_cleanup.call_dest {ε σ Iter FwdIter : Type} (ops : IterOps Iter)
    (dops : IterOps FwdIter) (fuel : Nat) (it last : Iter) (dest : FwdIter)
    (f : Callback2 ε σ Iter FwdIter) (cleanup : Callback ε σ FwdIter)
    (w : World σ (Call2 Iter FwdIter)) :
    Option (Completion ε FwdIter × World σ (Call2 Iter FwdIter)) :=
  match loop_with_cleanup.try_block_dest ops dops f fuel it last dest w with
  | none => none
  | some (none, dest', w') => some (.normal dest', w')
  | some (some e, dest', w') =>
    catch_all dops Call2.cleanup cleanup fuel e dest dest' w'

/-- The `try` block of `detail::loop_with_cleanup_n::call(it, count, f, cleanup)`:
`for (; count != 0; (void) --count, ++it) f(it); return it;` -/
def loop_with_cleanup_n.try_block {ε σ Iter : Type} (ops : IterOps Iter)
    (f : Callback ε σ Iter) :
    Iter → Nat → World σ (Call Iter) → Option ε × Iter × World σ (Call Iter)
  | it, 0, w => (none, it, w)
  | it, count + 1, w =>
    match (f it w.tok w.user).result with
    | .raised e => (some e, it, w.after (.f it) (f it w.tok w.user))
    | .normal _ =>
      loop_with_cleanup_n.try_block ops f (ops.next it) count
        (w.after (.f it) (f it w.tok w.user))

/-- `detail::loop_with_cleanup_n::call(it, count, f, cleanup)`. -/
def loop_with_cleanup_n.call {ε σ Iter : Type} (ops : IterOps Iter) (fuel : Nat)
    (it : Iter) (count : Nat) (f cleanup : Callback ε σ Iter)
    (w : World σ (Call Iter)) : Option (Completion ε Iter × World σ (Call Iter)) :=
  match loop_with_cleanup_n.try_block ops f it count w with
  | (none, it', w') => some (.normal it', w')
  | (some e, it', w') => catch_all ops Call.cleanup cleanup fuel e it it' w'

/-- The `try` block of
`detail::loop_with_cleanup_n::call_with_token(it, count, tok, f, cleanup)`:
`for (; count != 0; (void) --count, ++it) { if (tok.was_cancelled()) break;
f(it); } return it;` -/
def loop_with_cleanup_n.try_block_with_token {ε σ Iter : Type} (ops : IterOps Iter)
    (f : Callback ε σ Iter) :
    Iter → Nat → World σ (Call Iter) → Option ε × Iter × World σ (Call Iter)
  | it, 0, w => (none, it, w)
  | it, count + 1, w =>
    if w.tok.was_cancelled then (none, it, w)
    else
      match (f it w.tok w.user).result with
      | .raised e => (some e, it, w.after (.f it) (f it w.tok w.user))
      | .normal _ =>
        loop_with_cleanup_n.try_block_with_token ops f (ops.next it) count
          (w.after (.f it) (f it w.tok w.user))

/-- `detail::loop_with_cleanup_n::call_with_token(it, count, tok, f, cleanup)`:
the handler is `catch (...) { tok.cancel(); for (; base != it; ++base)
cleanup(base); throw; }` -/
def loop_with_cleanup_n.call_with_token {ε σ Iter : Type} (ops : IterOps Iter)
    (fuel : Nat) (it : Iter) (count : Nat) (f cleanup : Callback ε σ Iter)
    (w : World σ (Call Iter)) : Option (Completion ε Iter × World σ (Call Iter)) :=
  match loop_with_cleanup_n.try_block_with_token ops f it count w with
  | (none, it', w') => some (.normal it', w')
  | (some e, it', w') =>
    catch_all ops Call.cleanup cleanup fuel e it it' { w' with tok := w'.tok.cancel }

/-- `detail::loop_idx_n::call(base_idx, it, count, f)`:
`for (; count != 0; (void) --count, ++it, ++base_idx) f(*it, base_idx);
return it;` with `base_idx` a `std::size_t`. -/
def loop_idx_n.call {ε σ Iter Elem : Type} (ops : IterOps Iter) (deref : Iter → Elem)
    (f : Elem → Nat → CancelToken → σ → Outcome ε σ Unit) :
    Nat → Iter → Nat → World σ (CallIdx Elem) →
      Completion ε Iter × World σ (CallIdx Elem)
  | _, it, 0, w => (.normal it, w)
  | base_idx, it, count + 1, w =>
    match (f (deref it) base_idx w.tok w.user).result with
    | .raised e =>
      (.raised e, w.after (.f (deref it) base_idx) (f (deref it) base_idx w.tok w.user))
    | .normal _ =>
      loop_idx_n.call ops deref f ((base_idx + 1) % SIZE_MOD) (ops.next it) count
        (w.after (.f (deref it) base_idx) (f (deref it) base_idx w.tok w.user))

/-- `detail::accumulate_n::call(it, count, init, f)`:
`for (; count != 0; (void) --count, ++it) init = f(init, *it); return init;` -/
def accumulate_n.call {ε σ Iter Elem T : Type} (ops : IterOps Iter)
    (deref : Iter → Elem) (f : T → Elem → CancelToken → σ → Outcome ε σ T) :
    Iter → Nat → T → World σ (CallAcc T Elem) →
      Completion ε T × World σ (CallAcc T Elem)
  | _, 0, init, w => (.normal init, w)
  | it, count + 1, init, w =>
    match (f init (deref it) w.tok w.user).result with
    | .raised e =>
      (.raised e, w.after (.f init (deref it)) (f init (deref it) w.tok w.user))
    | .normal v =>
      accumulate_n.call ops deref f (ops.next it) count v
        (w.after (.f init (deref it)) (f init (deref it) w.tok w.user))

end detail

/-- `loop_with_cleanup(it, last, f, cleanup)`: forwards to
`detail::loop_with_cleanup<cat>::call`. -/
def loop_with_cleanup {ε σ Iter : Type} (ops : IterOps Iter) (fuel : Nat)
    (it last : Iter) (f cleanup : Callback ε σ Iter) (w : World σ (Call Iter)) :
    Option (Completion ε Iter × World σ (Call Iter)) :=
  detail.loop_with_cleanup.call ops fuel it last f cleanup w

/-- `loop_with_cleanup(it, last, dest, f, cleanup)`: forwards to the destination
overload of `detail::loop_with_cleanup<cat>::call`. -/
def loop_with_cleanup_dest {ε σ Iter FwdIter : Type} (ops : IterOps Iter)
    (dops : IterOps FwdIter) (fuel : Nat) (it last : Iter) (dest : FwdIter)
    (f : Callback2 ε σ Iter FwdIter) (cleanup : Callback ε σ FwdIter)
    (w : World σ (Call2 Iter FwdIter)) :
    Option (Completion ε FwdIter × World σ (Call2 Iter FwdIter)) :=
  detail.loop_with_cleanup.call_dest ops dops fuel it last dest f cleanup w

/-- `loop_with_cleanup_n(it, count, f, cleanup)`: forwards to
`detail::loop_with_cleanup_n<cat>::call`. -/
def loop_with_cleanup_n {ε σ Iter : Type} (ops : IterOps Iter) (fuel : Nat)
    (it : Iter) (count : Nat) (f cleanup : Callback ε σ Iter)
    (w : World σ (Call Iter)) : Option (Completion ε Iter × World σ (Call Iter)) :=
  detail.loop_with_cleanup_n.call ops fuel it count f cleanup w

/-- `loop_with_cleanup_n_with_token(it, count, tok, f, cleanup)`: forwards to
`detail::loop_with_cleanup_n<cat>::call_with_token`. -/
def loop_with_cleanup_n_with_token {ε σ Iter : Type} (ops : IterOps Iter)
    (fuel : Nat) (it : Iter) (count : Nat) (f cleanup : Callback ε σ Iter)
    (w : World σ (Call Iter)) : Option (Completion ε Iter × World σ (Call Iter)) :=
  detail.loop_with_cleanup_n.call_with_token ops fuel it count f cleanup w

/-- `loop_idx_n(base_idx, it, count, f)`: forwards to
`detail::loop_idx_n<cat>::call`. -/
def loop_idx_n {ε σ Iter Elem : Type} (ops : IterOps Iter) (deref : Iter → Elem)
    (base_idx : Nat) (it : Iter) (count : Nat)
    (f : Elem → Nat → CancelToken → σ → Outcome ε σ Unit)
    (w : World σ (CallIdx Elem)) : Completion ε Iter × World σ (CallIdx Elem) :=
  detail.loop_idx_n.call ops deref f base_idx it count w

/-- `accumulate_n(it, count, init, f)`: forwards to
`detail::accumulate_n<cat>::call`. -/
def accumulate_n {ε σ Iter Elem T : Type} (ops : IterOps Iter) (deref : Iter → Elem)
    (it : Iter) (count : Nat) (init : T)
    (f : T → Elem → CancelToken → σ → Outcome ε σ T)
    (w : World σ (CallAcc T Elem)) : Completion ε T × World σ (CallAcc T Elem) :=
  detail.accumulate_n.call ops deref f it count init w

/-! ## Chunked prefetch iterator and context

The logical index `idx` and the sizes are `std::size_t` values, with
arithmetic modulo `SIZE_MOD`.  The back-iterator `base` is kept as its offset
from the start of the context's index buffer, an integer.  Where the source
adds or subtracts the product `rhs*chunk_size` it forms that product in
`std::size_t`, where it wraps, and the iterator arithmetic then takes it as a
`difference_type`: the offset moves by `toSigned` of the wrapped product.  A
backing buffer (a `T*`) is kept as a number that identifies it. -/

/-- Conversion of a `std::size_t` value to `difference_type`
(`std::ptrdiff_t`, two's complement). -/
def toSigned (x : Nat) : Int :=
  if x < 2 ^ (SIZE_BITS - 1) then (x : Int) else (x : Int) - (SIZE_MOD : Int)

/-- Conversion of a `difference_type` value to `std::size_t`. -/
def toSizeT (d : Int) : Nat := (d % (SIZE_MOD : Int)).toNat

namespace detail

/-- `detail::prefetching_iterator<T>`: the data members. -/
structure prefetching_iterator where
  M_ : List Nat
  base : Int
  chunk_size : Nat
  range_size : Nat
  idx : Nat
  deriving DecidableEq

/-- `prefetching_iterator::operator++()`:
`idx = idx + chunk_size; base = base + chunk_size;` -/
def prefetching_iterator.next (it : prefetching_iterator) : prefetching_iterator :=
  { it with
    idx := (it.idx + it.chunk_size) % SIZE_MOD
    base := it.base + (it.chunk_size : Int) }

/-- `prefetching_iterator::operator-(const prefetching_iterator& rhs)`:
`return (idx - rhs.idx) / chunk_size;`, computed in `std::size_t` and returned
as a `difference_type`.  (With `chunk_size = 0` the source divides by zero;
here the quotient is then 0.) -/
def prefetching_iterator.diff (it rhs : prefetching_iterator) : Int :=
  toSigned (((it.idx + SIZE_MOD - rhs.idx) % SIZE_MOD) / it.chunk_size)

/-- `prefetching_iterator::operator==`: `return idx == rhs.idx;` -/
def prefetching_iterator.eq (it rhs : prefetching_iterator) : Bool := it.idx == rhs.idx

/-- `prefetching_iterator::operator!=`: `return idx != rhs.idx;` -/
def prefetching_iterator.ne (it rhs : prefetching_iterator) : Bool := it.idx != rhs.idx

/-- `prefetching_iterator::operator+=(difference_type rhs)`:
`idx = idx + (rhs*chunk_size); base = base + (rhs*chunk_size);`, the product
being formed in `std::size_t`. -/
def prefetching_iterator.add_assign (it : prefetching_iterator) (rhs : Int) :
    prefetching_iterator :=
  { it with
    idx := (it.idx + (toSizeT rhs * it.chunk_size) % SIZE_MOD) % SIZE_MOD
    base := it.base + toSigned ((toSizeT rhs * it.chunk_size) % SIZE_MOD) }

/-- `prefetching_iterator::operator-=(difference_type rhs)`:
`idx = idx - (rhs*chunk_size); base = base - (rhs*chunk_size);` -/
def prefetching_iterator.sub_assign (it : prefetching_iterator) (rhs : Int) :
    prefetching_iterator :=
  { it with
    idx := (it.idx + SIZE_MOD - (toSizeT rhs * it.chunk_size) % SIZE_MOD) % SIZE_MOD
    base := it.base - toSigned ((toSizeT rhs * it.chunk_size) % SIZE_MOD) }

/-- `prefetching_iterator::operator--()`:
`idx = idx - chunk_size; base = base - chunk_size;` -/
def prefetching_iterator.prev (it : prefetching_iterator) : prefetching_iterator :=
  { it with
    idx := (it.idx + SIZE_MOD - it.chunk_size) % SIZE_MOD
    base := it.base - (it.chunk_size : Int) }

/-- `prefetching_iterator::operator+(difference_type rhs)`:
`return prefetching_iterator(idx + (rhs*chunk_size), base + (rhs*chunk_size),
chunk_size, range_size, M_);` -/
def prefetching_iterator.add (it : prefetching_iterator) (rhs : Int) :
    prefetching_iterator :=
  { M_ := it.M_
    base := it.base + toSigned ((toSizeT rhs * it.chunk_size) % SIZE_MOD)
    chunk_size := it.chunk_size
    range_size := it.range_size
    idx := (it.idx + (toSizeT rhs * it.chunk_size) % SIZE_MOD) % SIZE_MOD }

/-- `prefetching_iterator::operator-(difference_type rhs)`:
`return prefetching_iterator(idx - (rhs*chunk_size), base - (rhs*chunk_size),
chunk_size, range_size, M_);` -/
def prefetching_iterator.sub (it : prefetching_iterator) (rhs : Int) :
    prefetching_iterator :=
  { M_ := it.M_
    base := it.base - toSigned ((toSizeT rhs * it.chunk_size) % SIZE_MOD)
    chunk_size := it.chunk_size
    range_size := it.range_size
    idx := (it.idx + SIZE_MOD - (toSizeT rhs * it.chunk_size) % SIZE_MOD) % SIZE_MOD }

/-- A `prefetching_iterator<T>` as the generic kernels see it: `operator++`
and `operator!=`. -/
def prefetchOps : IterOps prefetching_iterator :=
  { next := prefetching_iterator.next, ne := prefetching_iterator.ne }

/-- `detail::prefetcher_context<T>`: the data members.  The constructor
without a distance factor leaves `prefetcher_distance_factor` unset. -/
structure prefetcher_context where
  range : List Nat
  it_begin : Int
  it_end : Int
  prefetcher_distance_factor : Option Nat
  chunk_size : Nat
  m : List Nat
  range_size : Nat
  deriving DecidableEq

/-- The constructor `prefetcher_context(begin, end, p_factor, l)`, for an
element type of `elem_size = sizeof(T)` bytes:
`vector_size = end - begin; range.resize(vector_size);
for (i = 0; i < vector_size; ++i) range[i] = i;
it_begin = range.begin(); it_end = range.end() - 1;
chunk_size = p_factor * 64 / sizeof(T); m = l; range_size = vector_size;` -/
def prefetcher_context.ctor_p_factor (elem_size begin_ end_ p_factor : Nat)
    (l : List Nat) : prefetcher_context :=
  { range := (List.range ((end_ + SIZE_MOD - begin_) % SIZE_MOD)).map (fun i => i)
    it_begin := 0
    it_end := (((end_ + SIZE_MOD - begin_) % SIZE_MOD : Nat) : Int) - 1
    prefetcher_distance_factor := some p_factor
    chunk_size := (p_factor * 64 % SIZE_MOD) / elem_size
    m := l
    range_size := (end_ + SIZE_MOD - begin_) % SIZE_MOD }

/-- The constructor `prefetcher_context(begin, end, l)`:
`vector_size = end - begin; range.resize(vector_size);
for (i = 0; i < vector_size; ++i) range[i] = i + begin;
it_begin = range.begin(); it_end = range.begin() + vector_size - 1;
chunk_size = 64 / sizeof(T); m = l; range_size = vector_size;` -/
def prefetcher_context.ctor_default (elem_size begin_ end_ : Nat) (l : List Nat) :
    prefetcher_context :=
  { range := (List.range ((end_ + SIZE_MOD - begin_) % SIZE_MOD)).map
      (fun i => (i + begin_) % SIZE_MOD)
    it_begin := 0
    it_end := (0 : Int) + (((end_ + SIZE_MOD - begin_) % SIZE_MOD : Nat) : Int) - 1
    prefetcher_distance_factor := none
    chunk_size := 64 / elem_size
    m := l
    range_size := (end_ + SIZE_MOD - begin_) % SIZE_MOD }

/-- `prefetcher_context::begin()`:
`return prefetching_iterator<T>(0ul, it_begin, chunk_size, range_size, m);` -/
def prefetcher_context.begin (ctx : prefetcher_context) : prefetching_iterator :=
  { M_ := ctx.m, base := ctx.it_begin, chunk_size := ctx.chunk_size,
    range_size := ctx.range_size, idx := 0 }

/-- `prefetcher_context::end()`:
`return prefetching_iterator<T>(std::distance(it_begin, it_end + 1), it_end,
chunk_size, range_size, m);` -/
def prefetcher_context.end (ctx : prefetcher_context) : prefetching_iterator :=
  { M_ := ctx.m, base := ctx.it_end, chunk_size := ctx.chunk_size,
    range_size := ctx.range_size, idx := toSizeT ((ctx.it_end + 1) - ctx.it_begin) }

/-- `make_prefetcher_context<T>(idx_begin, idx_end, l, p_factor)` (`p_factor`
defaults to 0 in the source):
`if (p_factor == 0) return prefetcher_context<T>(idx_begin, idx_end, l);
else return prefetcher_context<T>(idx_begin, idx_end, p_factor, l);` -/
def make_prefetcher_context (elem_size idx_begin idx_end : Nat) (l : List Nat)
    (p_factor : Nat) : prefetcher_context :=
  if p_factor = 0 then prefetcher_context.ctor_default elem_size idx_begin idx_end l
  else prefetcher_context.ctor_p_factor elem_size idx_begin idx_end p_factor l

end detail

/-! The variant of the context in `Untitled Folder/pref.hpp`: it keeps the
caller's iterators instead of building an index buffer. -/

namespace pref

/-- `detail::prefetcher_context<data_type, Itr>` of pref.hpp: the data members
(an `Itr` is kept as its offset). -/
structure prefetcher_context where
  it_begin : Int
  it_end : Int
  chunk_size : Nat
  m : List Nat
  range_size : Nat
  deriving DecidableEq

/-- The constructor `prefetcher_context(begin, end, p_factor, l)` of pref.hpp:
`it_begin = begin; it_end = end;
chunk_size = p_factor * 64ul / sizeof(data_type); m = l;
range_size = std::difference(begin, end);`
(`std::difference` is no function of the standard library; it is read as the
distance from `begin` to `end`.) -/
def prefetcher_context.ctor_p_factor (elem_size : Nat) (begin_ end_ : Int)
    (p_factor : Nat) (l : List Nat) : prefetcher_context :=
  { it_begin := begin_
    it_end := end_
    chunk_size := (p_factor * 64 % SIZE_MOD) / elem_size
    m := l
    range_size := toSizeT (end_ - begin_) }

/-- The constructor `prefetcher_context(begin, end, l)` of pref.hpp:
`it_begin = begin; it_end = end; chunk_size = 64ul / sizeof(data_type);
m = l; range_size = std::difference(begin, end);` -/
def prefetcher_context.ctor_default (elem_size : Nat) (begin_ end_ : Int)
    (l : List Nat) : prefetcher_context :=
  { it_begin := begin_
    it_end := end_
    chunk_size := 64 / elem_size
    m := l
    range_size := toSizeT (end_ - begin_) }

/-- `make_prefetcher_context(idx_begin, idx_end, l, p_factor)` of pref.hpp:
`if (p_factor == 0) return prefetcher_context(idx_begin, idx_end, l);
else return prefetcher_context(idx_begin, idx_end, p_factor, l);` -/
def make_prefetcher_context (elem_size : Nat) (idx_begin idx_end : Int) (l : List Nat)
    (p_factor : Nat) : prefetcher_context :=
  if p_factor = 0 then prefetcher_context.ctor_default elem_size idx_begin idx_end l
  else prefetcher_context.ctor_p_factor elem_size idx_begin idx_end p_factor l

end pref

/-- What the chunked kernels do that can be observed: `f(inner_it)`, with the
offset of `inner_it` in the index buffer, and `_mm_prefetch(&x[index])` for a
backing buffer `x`. -/
inductive PCall where
  | f (inner_it : Int)
  | prefetch (x : Nat) (index : Nat)
  deriving DecidableEq

/-- The world after the events `evs`, which change neither the user state nor
the token, have been recorded. -/
def World.record {σ κ : Type} (w : World σ κ) (evs : List κ) : World σ κ :=
  { w with trace := w.trace ++ evs }

namespace detail

/-- The inner loop of `loop_n<prefetching_iterator<T>>::call(it, count, f)`:
`for (; j < last; ++j) { f(inner_it); ++inner_it; }` with `steps = last - j`
iterations to go.  It yields the failure raised by `f`, if any, and the final
`j`. -/
def loop_n_prefetching.inner {ε σ : Type} (f : Callback ε σ Int) :
    Nat → Nat → Int → World σ PCall → Option ε × Nat × World σ PCall
  | 0, j, _, w => (none, j, w)
  | steps + 1, j, inner_it, w =>
    match (f inner_it w.tok w.user).result with
    | .raised e => (some e, j, w.after (.f inner_it) (f inner_it w.tok w.user))
    | .normal _ =>
      loop_n_prefetching.inner f steps (j + 1) (inner_it + 1)
        (w.after (.f inner_it) (f inner_it w.tok w.user))

/-- `detail::loop_n<prefetching_iterator<T>>::call(it, count, f)` of loop.hpp:
`for (; count != 0; (void) --count, ++it) {
   inner_it = it.base; j = it.idx;
   for (; j < std::min(it.range_size, it.idx + it.chunk_size); ++j)
     { f(inner_it); ++inner_it; }
   if (j < it.range_size - 1)
     for (auto& x : it.M_) _mm_prefetch((char*)(&x[j+1]), _MM_HINT_T0);
 }
 return it;`
The guard `j < it.range_size - 1` keeps `j + 1` within `std::size_t`. -/
def loop_n_prefetching.call {ε σ : Type} (f : Callback ε σ Int) :
    prefetching_iterator → Nat → World σ PCall →
      Completion ε prefetching_iterator × World σ PCall
  | it, 0, w => (.normal it, w)
  | it, count + 1, w =>
    match loop_n_prefetching.inner f
        (min it.range_size ((it.idx + it.chunk_size) % SIZE_MOD) - it.idx)
        it.idx it.base w with
    | (some e, _, w') => (.raised e, w')
    | (none, j, w') =>
      loop_n_prefetching.call f it.next count
        (if j < (it.range_size + SIZE_MOD - 1) % SIZE_MOD then
          w'.record (it.M_.map (fun x => PCall.prefetch x (j + 1)))
        else w')

/-- The inner loop of the token overload:
`for (; j < last; ++j) { if (tok.was_cancelled()) break; f(inner_it);
++inner_it; }` with `steps = last - j` iterations to go. -/
def loop_n_prefetching.inner_tok {ε σ : Type} (f : Callback ε σ Int) :
    Nat → Nat → Int → World σ PCall → Option ε × Nat × World σ PCall
  | 0, j, _, w => (none, j, w)
  | steps + 1, j, inner_it, w =>
    if w.tok.was_cancelled then (none, j, w)
    else
      match (f inner_it w.tok w.user).result with
      | .raised e => (some e, j, w.after (.f inner_it) (f inner_it w.tok w.user))
      | .normal _ =>
        loop_n_prefetching.inner_tok f steps (j + 1) (inner_it + 1)
          (w.after (.f inner_it) (f inner_it w.tok w.user))

/-- `detail::loop_n<prefetching_iterator<T>>::call(it, count, tok, f)` of
loop.hpp:
`for (; count != 0; (void) --count, ++it) {
   inner_it = it.base;
   for (j = it.idx; j < std::min(it.range_size, it.idx + it.chunk_size); ++j)
     { if (tok.was_cancelled()) break; f(inner_it); ++inner_it; }
 }
 return it;` -/
def loop_n_prefetching.call_tok {ε σ : Type} (f : Callback ε σ Int) :
    prefetching_iterator → Nat → World σ PCall →
      Completion ε prefetching_iterator × World σ PCall
  | it, 0, w => (.normal it, w)
  | it, count + 1, w =>
    match loop_n_prefetching.inner_tok f
        (min it.range_size ((it.idx + it.chunk_size) % SIZE_MOD) - it.idx)
        it.idx it.base w with
    | (some e, _, w') => (.raised e, w')
    | (none, _, w') => loop_n_prefetching.call_tok f it.next count w'

end detail

/-- `loop_n(it, count, f)` for a `prefetching_iterator<T>`: forwards to the
specialisation `detail::loop_n<prefetching_iterator<T>>::call`. -/
def loop_n_prefetching {ε σ : Type} (it : detail.prefetching_iterator) (count : Nat)
    (f : Callback ε σ Int) (w : World σ PCall) :
    Completion ε detail.prefetching_iterator × World σ PCall :=
  detail.loop_n_prefetching.call f it count w

/-- `loop_n(it, count, tok, f)` for a `prefetching_iterator<T>`: forwards to the
token overload of the specialisation. -/
def loop_n_prefetching_tok {ε σ : Type} (it : detail.prefetching_iterator) (count : Nat)
    (f : Callback ε σ Int) (w : World σ PCall) :
    Completion ε detail.prefetching_iterator × World σ PCall :=
  detail.loop_n_prefetching.call_tok f it count w

/-! ## The friend operators of the iterator, and the `loop_n` of l.hpp -/

namespace detail

/-- The friend `operator+(difference_type lhs, const prefetching_iterator& rhs)`:
`return rhs + lhs;` -/
def prefetching_iterator.friend_add (lhs : Int) (rhs : prefetching_iterator) :
    prefetching_iterator :=
  rhs.add lhs

/-- The friend `operator-(difference_type lhs, const prefetching_iterator& rhs)`:
`return lhs - rhs;`.  With a `difference_type` on the left and an iterator on
the right, the expression `lhs - rhs` is a call of this very operator (the
member operators need the iterator on the left, and no conversion makes an
iterator of a `difference_type`): each call takes one unit of fuel. -/
def prefetching_iterator.friend_sub :
    Nat → Int → prefetching_iterator → Option prefetching_iterator
  | 0, _, _ => none
  | fuel + 1, lhs, rhs => prefetching_iterator.friend_sub fuel lhs rhs

end detail

namespace l

/-- The loop of the specialisation
`detail::loop_n<prefetching_iterator<data_type>>::call(it, count, f)` of
`Untitled Folder/l.hpp`, with `cnt` chunks to go:
`for (; cnt != 0; (void) --cnt, ++it) {
   inner_it = it.base; j = it.idx; last = it.idx + it.chunk_size;
   if (it.range_size < last) last = it.range_size;
   for (; j < last; ++j) { f(inner_it); ++inner_it; }
   if (j < it.range_size - 1)
     for (auto& x : it.M_) _mm_prefetch((char*)(&x[j+1]), _MM_HINT_T0);
 }
 return it;` -/
def loop_n_prefetching.loop {ε σ : Type} (f : Callback ε σ Int) :
    detail.prefetching_iterator → Nat → World σ PCall →
      Completion ε detail.prefetching_iterator × World σ PCall
  | it, 0, w => (.normal it, w)
  | it, cnt + 1, w =>
    match detail.loop_n_prefetching.inner f
        ((if it.range_size < (it.idx + it.chunk_size) % SIZE_MOD then it.range_size
          else (it.idx + it.chunk_size) % SIZE_MOD) - it.idx)
        it.idx it.base w with
    | (some e, _, w') => (.raised e, w')
    | (none, j, w') =>
      loop_n_prefetching.loop f it.next cnt
        (if j < (it.range_size + SIZE_MOD - 1) % SIZE_MOD then
          w'.record (it.M_.map (fun x => PCall.prefetch x (j + 1)))
        else w')

/-- The specialisation
`detail::loop_n<prefetching_iterator<data_type>>::call(it, count, f)` of l.hpp,
called directly: `std::size_t cnt = count + 1;` and then the loop above.
(The `loop_n` of l.hpp does not reach it, see `l.loop_n`.) -/
def loop_n_prefetching.call {ε σ : Type} (f : Callback ε σ Int)
    (it : detail.prefetching_iterator) (count : Nat) (w : World σ PCall) :
    Completion ε detail.prefetching_iterator × World σ PCall :=
  loop_n_prefetching.loop f it ((count + 1) % SIZE_MOD) w

/-- `loop_n(it, count, f)` of l.hpp, called with a `prefetching_iterator<T>`:
`typedef typename util::loop_n_iterator_mapping<Iter>::type iterator_type;
return detail::loop_n<iterator_type>::call(it, count, std::forward<F>(f));`
`loop_n_iterator_mapping` sends a `prefetching_iterator<T>` to its
`base_iterator`, so `detail::loop_n<iterator_type>` is the generic template,
not the specialisation above; its `call` (l.hpp lines 81-87, the text of the
generic `call` of loop.hpp) runs on the prefetching iterator itself:
`for (; count != 0; (void) --count, ++it) f(it); return it;` -/
def loop_n {ε σ : Type} (it : detail.prefetching_iterator) (count : Nat)
    (f : Callback ε σ detail.prefetching_iterator)
    (w : World σ (Call detail.prefetching_iterator)) :
    Completion ε detail.prefetching_iterator × World σ (Call detail.prefetching_iterator) :=
  detail.loop_n.call detail.prefetchOps f it count w

end l

/-! ## Vocabulary of the properties -/

/-- `[it, last)` is a range of length `n`: stepping from `it`, the positions
`0 .. n-1` differ from `last`, position `n` compares equal to `last`, and two
of the positions `0 .. n` compare equal only when they are the same one. -/
def IsRange {Iter : Type} (ops : IterOps Iter) (it last : Iter) (n : Nat) : Prop :=
  (∀ k, k < n → ops.ne (ops.advance k it) last = true) ∧
  ops.ne (ops.advance n it) last = false ∧
  (∀ j k, j ≤ n → k ≤ n →
    (ops.ne (ops.advance j it) (ops.advance k it) = false ↔ j = k))

/-- The world after the callback `g` has been invoked, one position after the
other, on the first `k` positions from `it`; `ev` is how an invocation is
recorded. -/
def runCalls {ε σ κ Iter : Type} (ops : IterOps Iter) (ev : Iter → κ)
    (g : Callback ε σ Iter) : Nat → Iter → World σ κ → World σ κ
  | 0, _, w => w
  | k + 1, it, w => runCalls ops ev g k (ops.next it) (w.after (ev it) (g it w.tok w.user))

/-- The invocations recorded by `ev` on the first `k` positions from `it`, in
increasing order. -/
def calls {κ Iter : Type} (ops : IterOps Iter) (ev : Iter → κ) (it : Iter) (k : Nat) :
    List κ :=
  (List.range k).map (fun i => ev (ops.advance i it))

/-- The callback `g`, invoked at position `p` in world `w`, returns. -/
def CompletesAt {ε σ κ Iter : Type} (g : Callback ε σ Iter) (p : Iter) (w : World σ κ) :
    Prop :=
  (g p w.tok w.user).result = .normal ()

/-- The callback `g`, invoked at position `p` in world `w`, raises `e`. -/
def RaisesAt {ε σ κ Iter : Type} (g : Callback ε σ Iter) (p : Iter) (w : World σ κ)
    (e : ε) : Prop :=
  (g p w.tok w.user).result = .raised e

/-- The callback `g` never raises, wherever and in whatever state it is invoked. -/
def NeverRaises {ε σ Iter : Type} (g : Callback ε σ Iter) : Prop :=
  ∀ p t s, (g p t s).result = .normal ()

/-- Iterators over the natural numbers (an index or a pointer into an array):
`++` is the successor, `!=` is disequality. -/
def natOps : IterOps Nat := { next := fun i => i + 1, ne := fun a b => a != b }

/-- A world with no user state, a token not yet cancelled and an empty trace. -/
def World.start {κ : Type} : World Unit κ := { user := (), tok := ⟨false⟩, trace := [] }

/-- A callback that raises the failure `e` at position `m` and returns
everywhere else. -/
def raiseAt (m : Nat) (e : String) : Callback String Unit Nat :=
  fun p _ s => { user := s, cancel := false,
                 result := if p = m then .raised e else .normal () }

/-- A callback that does nothing. -/
def noop : Callback String Unit Nat :=
  fun _ _ s => { user := s, cancel := false, result := .normal () }

/-- A callback that cancels the token at position `j` and nowhere else. -/
def cancelAt (j : Nat) : Callback String Unit Nat :=
  fun p _ s => { user := s, cancel := decide (p = j), result := .normal () }

/-- The elements `*it, *(it+1), ..., *(it+count-1)`. -/
def firstElems {Iter Elem : Type} (ops : IterOps Iter) (deref : Iter → Elem) (it : Iter)
    (count : Nat) : List Elem :=
  (List.range count).map (fun i => deref (ops.advance i it))

/-- The invocations `f(*(it+k), idx k)` for `k = 0 .. count-1`, in increasing `k`. -/
def idxCalls {Iter Elem : Type} (ops : IterOps Iter) (deref : Iter → Elem) (it : Iter)
    (idx : Nat → Nat) (count : Nat) : List (CallIdx Elem) :=
  (List.range count).map (fun k => CallIdx.f (deref (ops.advance k it)) (idx k))

/-- Dereferencing an index into the array `xs`. -/
def arrayDeref (xs : List Nat) : Nat → Nat := fun i => xs.getD i 0

/-- A reducer without side effects that computes `g` and never raises. -/
def pureFn {T Elem : Type} (g : T → Elem → T) :
    T → Elem → CancelToken → Unit → Outcome String Unit T :=
  fun a x _ s => { user := s, cancel := false, result := .normal (g a x) }

/-- An indexed callback that does nothing. -/
def noopIdx : Nat → Nat → CancelToken → Unit → Outcome String Unit Unit :=
  fun _ _ _ s => { user := s, cancel := false, result := .normal () }

/-- The world after `f(it+k, dest+k)` has been invoked for `k = 0 .. count-1`. -/
def runCalls2 {ε σ Iter FwdIter : Type} (ops : IterOps Iter) (dops : IterOps FwdIter)
    (f : Callback2 ε σ Iter FwdIter) :
    Nat → Iter → FwdIter → World σ (Call2 Iter FwdIter) → World σ (Call2 Iter FwdIter)
  | 0, _, _, w => w
  | k + 1, it, dest, w =>
    runCalls2 ops dops f k (ops.next it) (dops.next dest)
      (w.after (.f it dest) (f it dest w.tok w.user))

/-- The invocations `f(it+k, dest+k)` for `k = 0 .. count-1`, in increasing `k`. -/
def calls2 {Iter FwdIter : Type} (ops : IterOps Iter) (dops : IterOps FwdIter) (it : Iter)
    (dest : FwdIter) (count : Nat) : List (Call2 Iter FwdIter) :=
  (List.range count).map (fun k => Call2.f (ops.advance k it) (dops.advance k dest))

/-- A two-iterator callback that raises the failure `e` at source position `m`
and returns everywhere else. -/
def raiseAt2 (m : Nat) (e : String) : Callback2 String Unit Nat Nat :=
  fun p _ _ s => { user := s, cancel := false,
                   result := if p = m then .raised e else .normal () }

/-- The buffer positions on which `f` was invoked, oldest first. -/
def fPositions (trace : List PCall) : List Int :=
  trace.filterMap (fun ev => match ev with
    | .f p => some p
    | .prefetch _ _ => none)

/-- The element indices for which a prefetch hint was issued, oldest first. -/
def prefetchTargets (trace : List PCall) : List Nat :=
  trace.filterMap (fun ev => match ev with
    | .f _ => none
    | .prefetch _ i => some i)

/-- The iterator `it` after `k` applications of `operator++`. -/
def detail.prefetching_iterator.advance :
    Nat → detail.prefetching_iterator → detail.prefetching_iterator
  | 0, it => it
  | k + 1, it => detail.prefetching_iterator.advance k it.next

/-- The buffer positions the chunked kernel visits for the chunk at `it`:
from `it.base`, one for every index of
`[it.idx, min(it.range_size, it.idx + it.chunk_size))`. -/
def chunkPositions (it : detail.prefetching_iterator) : List Int :=
  (List.range (min it.range_size ((it.idx + it.chunk_size) % SIZE_MOD) - it.idx)).map
    (fun (i : Nat) => it.base + (i : Int))

/-- The buffer position that a kernel started at `it` reaches for the logical
index `j`; it is `j` itself when `it.base` is at offset `it.idx`. -/
def posOf (it : detail.prefetching_iterator) (j : Nat) : Int :=
  it.base + ((j : Int) - (it.idx : Int))

/-- The indices of the `k`-th chunk from `it`:
`[s, min(it.range_size, s + it.chunk_size))` with `s = it.idx + k * it.chunk_size`,
in increasing order. -/
def chunkIndices (it : detail.prefetching_iterator) (k : Nat) : List Nat :=
  List.range' (it.idx + k * it.chunk_size)
    (min it.range_size (it.idx + k * it.chunk_size + it.chunk_size) -
      (it.idx + k * it.chunk_size))

/-- A callback on buffer positions that does nothing. -/
def noopAt : Callback String Unit Int :=
  fun _ _ s => { user := s, cancel := false, result := .normal () }

/-- The context `ctx_1` of foreachPrefetchTest.cpp: elements of 8 bytes
(`double`), indices `[0, 10007)`, one backing buffer, distance factor 20. -/
def ctx_1 : detail.prefetcher_context := detail.make_prefetcher_context 8 0 10007 [0] 20

/-- A context over the empty range `[0, 0)`: 8-byte elements, distance factor 1. -/
def ctx_empty : detail.prefetcher_context := detail.make_prefetcher_context 8 0 0 [0] 1

/-- A context over `[0, 16)`: 8-byte elements, distance factor 1 (chunks of 8). -/
def ctx_small : detail.prefetcher_context := detail.make_prefetcher_context 8 0 16 [0] 1

/-- A context over `[0, 7)`: 64-byte elements, distance factor 2 (chunks of 2). -/
def ctx_7 : detail.prefetcher_context := detail.make_prefetcher_context 64 0 7 [0] 2

/-- A world with no user state, a token already cancelled and an empty trace. -/
def World.cancelled {κ : Type} : World Unit κ :=
  { user := (), tok := ⟨true⟩, trace := [] }

/-- The iterator is well formed: its logical index and its chunk size are
`std::size_t` values. -/
def detail.prefetching_iterator.WellFormed (it : detail.prefetching_iterator) : Prop :=
  it.idx < SIZE_MOD ∧ it.chunk_size < SIZE_MOD

/-- A callback on prefetching iterators that does nothing. -/
def noopIt : Callback String Unit detail.prefetching_iterator :=
  fun _ _ s => { user := s, cancel := false, result := .normal () }

/-- The callback `g` never calls `cancel()` on the token. -/
def NeverCancels {ε σ Iter : Type} (g : Callback ε σ Iter) : Prop :=
  ∀ p t s, (g p t s).cancel = false

/-- A context over `[0, 3)`: 64-byte elements, distance factor 2 (chunks of 2);
the second chunk has one element. -/
def ctx_3 : detail.prefetcher_context := detail.make_prefetcher_context 64 0 3 [0] 2

/-- The iterator at logical index `i`, with its back-iterator at the same
offset, for chunks of `chunk` over a range of `range` elements and one buffer. -/
def itAt (chunk range i : Nat) : detail.prefetching_iterator :=
  { M_ := [0], base := (i : Int), chunk_size := chunk, range_size := range, idx := i }

/-! ## Helper lemmas -/

theorem advance_succ_eq {Iter : Type} (ops : IterOps Iter) (n : Nat) (it : Iter) :
    ops.advance (n + 1) it = ops.next (ops.advance n it) := by
  induction n generalizing it with
  | zero => rfl
  | succ n ih =>
    show ops.advance (n + 1) (ops.next it) = _
    rw [ih]; rfl

theorem natOps_advance (n a : Nat) : natOps.advance n a = a + n := by
  induction n generalizing a with
  | zero => rfl
  | succ n ih =>
    show natOps.advance n (a + 1) = _
    rw [ih]; omega

theorem natOps_ne (a b : Nat) : natOps.ne a b = true ↔ a ≠ b := by
  simp [natOps]

theorem natOps_ne_false (a b : Nat) : natOps.ne a b = false ↔ a = b := by
  simp [natOps]

theorem natOps_isRange (a n : Nat) : IsRange natOps a (a + n) n := by
  refine ⟨?_, ?_, ?_⟩
  · intro k hk
    rw [natOps_advance, natOps_ne]
    omega
  · rw [natOps_advance, natOps_ne_false]
  · intro j k _ _
    rw [natOps_advance, natOps_advance, natOps_ne_false]
    omega

theorem calls_succ_front {κ Iter : Type} (ops : IterOps Iter) (ev : Iter → κ) (it : Iter)
    (k : Nat) : calls ops ev it (k + 1) = ev it :: calls ops ev (ops.next it) k := by
  simp [calls, List.range_succ_eq_map, IterOps.advance, Function.comp_def]

theorem calls_length {κ Iter : Type} (ops : IterOps Iter) (ev : Iter → κ) (it : Iter)
    (k : Nat) : (calls ops ev it k).length = k := by
  simp [calls]

theorem isRange_tail {Iter : Type} (ops : IterOps Iter) (it last : Iter) (n : Nat)
    (h : IsRange ops it last (n + 1)) : IsRange ops (ops.next it) last n := by
  obtain ⟨h1, h2, h3⟩ := h
  refine ⟨?_, h2, ?_⟩
  · intro k hk
    exact h1 (k + 1) (by omega)
  · intro j k hj hk
    have := h3 (j + 1) (k + 1) (by omega) (by omega)
    simpa [IterOps.advance] using this

theorem runCalls_trace {ε σ κ Iter : Type} (ops : IterOps Iter) (ev : Iter → κ)
    (g : Callback ε σ Iter) (k : Nat) (it : Iter) (w : World σ κ) :
    (runCalls ops ev g k it w).trace = w.trace ++ calls ops ev it k := by
  induction k generalizing it w with
  | zero => simp [runCalls, calls]
  | succ k ih =>
    rw [runCalls, ih, calls_succ_front]
    simp [World.after]

theorem runCalls_succ_last {ε σ κ Iter : Type} (ops : IterOps Iter) (ev : Iter → κ)
    (g : Callback ε σ Iter) (k : Nat) (it : Iter) (w : World σ κ) :
    runCalls ops ev g (k + 1) it w =
      (runCalls ops ev g k it w).after (ev (ops.advance k it))
        (g (ops.advance k it) (runCalls ops ev g k it w).tok
          (runCalls ops ev g k it w).user) := by
  induction k generalizing it w with
  | zero => rfl
  | succ k ih =>
    show runCalls ops ev g (k + 1) (ops.next it) _ = _
    rw [ih]; rfl

/-- Once cancelled, the token stays cancelled through any callback invocations. -/
theorem runCalls_tok_cancelled {ε σ κ Iter : Type} (ops : IterOps Iter) (ev : Iter → κ)
    (g : Callback ε σ Iter) (k : Nat) (it : Iter) (w : World σ κ)
    (h : w.tok.was_cancelled = true) :
    (runCalls ops ev g k it w).tok.was_cancelled = true := by
  induction k generalizing it w with
  | zero => exact h
  | succ k ih =>
    apply ih
    simp only [World.after]
    split
    · rfl
    · exact h

/-- The plain loop returns `last` once `f` has returned on every position. -/
theorem loop_call_completes {ε σ Iter : Type} (ops : IterOps Iter) (f : Callback ε σ Iter)
    (n : Nat) : ∀ (fuel : Nat) (it last : Iter) (w : World σ (Call Iter)),
    (∀ k, k < n → ops.ne (ops.advance k it) last = true) →
    ops.ne (ops.advance n it) last = false →
    (∀ k, k < n → CompletesAt f (ops.advance k it) (runCalls ops Call.f f k it w)) →
    n < fuel →
    detail.loop.call ops f fuel it last w =
      some (.normal (ops.advance n it), runCalls ops Call.f f n it w) := by
  induction n with
  | zero =>
    intro fuel it last w _ h2 _ hfuel
    obtain ⟨fuel, rfl⟩ : ∃ g, fuel = g + 1 := ⟨fuel - 1, by omega⟩
    have h2' : ops.ne it last = false := h2
    simp [detail.loop.call, h2', IterOps.advance, runCalls]
  | succ n ih =>
    intro fuel it last w h1 h2 h3 hfuel
    obtain ⟨fuel, rfl⟩ : ∃ g, fuel = g + 1 := ⟨fuel - 1, by omega⟩
    have hne : ops.ne it last = true := h1 0 (by omega)
    have hc : (f it w.tok w.user).result = .normal () := h3 0 (by omega)
    rw [detail.loop.call]
    simp only [hne, if_true, hc]
    exact ih fuel (ops.next it) last _ (fun k hk => h1 (k + 1) (by omega)) h2
      (fun k hk => h3 (k + 1) (by omega)) (by omega)

/-- The count-driven loop returns `it + n` once `f` has returned on every
position. -/
theorem loop_n_call_completes {ε σ Iter : Type} (ops : IterOps Iter)
    (f : Callback ε σ Iter) (n : Nat) : ∀ (it : Iter) (w : World σ (Call Iter)),
    (∀ k, k < n → CompletesAt f (ops.advance k it) (runCalls ops Call.f f k it w)) →
    detail.loop_n.call ops f it n w =
      (.normal (ops.advance n it), runCalls ops Call.f f n it w) := by
  induction n with
  | zero => intro it w _; rfl
  | succ n ih =>
    intro it w h
    have hc : (f it w.tok w.user).result = .normal () := h 0 (by omega)
    rw [detail.loop_n.call]
    simp only [hc]
    exact ih (ops.next it) _ (fun k hk => h (k + 1) (by omega))

/-- The `try` block of `loop_with_cleanup` is left at position `m` with the
failure raised there. -/
theorem try_block_raises {ε σ Iter : Type} (ops : IterOps Iter) (f : Callback ε σ Iter)
    (e : ε) (m : Nat) : ∀ (fuel : Nat) (it last : Iter) (w : World σ (Call Iter)),
    (∀ k, k ≤ m → ops.ne (ops.advance k it) last = true) →
    (∀ k, k < m → CompletesAt f (ops.advance k it) (runCalls ops Call.f f k it w)) →
    RaisesAt f (ops.advance m it) (runCalls ops Call.f f m it w) e →
    m < fuel →
    detail.loop_with_cleanup.try_block ops f fuel it last w =
      some (some e, ops.advance m it, runCalls ops Call.f f (m + 1) it w) := by
  induction m with
  | zero =>
    intro fuel it last w h1 _ h3 hfuel
    obtain ⟨fuel, rfl⟩ : ∃ g, fuel = g + 1 := ⟨fuel - 1, by omega⟩
    have hne : ops.ne it last = true := h1 0 (by omega)
    have hr : (f it w.tok w.user).result = .raised e := h3
    rw [detail.loop_with_cleanup.try_block]
    simp only [hne, if_true, hr]
    rfl
  | succ m ih =>
    intro fuel it last w h1 h2 h3 hfuel
    obtain ⟨fuel, rfl⟩ : ∃ g, fuel = g + 1 := ⟨fuel - 1, by omega⟩
    have hne : ops.ne it last = true := h1 0 (by omega)
    have hc : (f it w.tok w.user).result = .normal () := h2 0 (by omega)
    rw [detail.loop_with_cleanup.try_block]
    simp only [hne, if_true, hc]
    exact ih fuel (ops.next it) last _ (fun k hk => h1 (k + 1) (by omega))
      (fun k hk => h2 (k + 1) (by omega)) h3 (by omega)

/-- The rollback loop runs `cleanup` on the `m` positions from `base` up to
`it`, when `cleanup` returns on each of them. -/
theorem cleanup_loop_completes {ε σ κ Iter : Type} (ops : IterOps Iter) (ev : Iter → κ)
    (cleanup : Callback ε σ Iter) (m : Nat) :
    ∀ (fuel : Nat) (base it : Iter) (w : World σ κ),
    (∀ k, k < m → ops.ne (ops.advance k base) it = true) →
    ops.ne (ops.advance m base) it = false →
    (∀ k, k < m →
      CompletesAt cleanup (ops.advance k base) (runCalls ops ev cleanup k base w)) →
    m < fuel →
    detail.cleanup_loop ops ev cleanup fuel base it w =
      some (none, runCalls ops ev cleanup m base w) := by
  induction m with
  | zero =>
    intro fuel base it w _ h2 _ hfuel
    obtain ⟨fuel, rfl⟩ : ∃ g, fuel = g + 1 := ⟨fuel - 1, by omega⟩
    have h2' : ops.ne base it = false := h2
    simp [detail.cleanup_loop, h2', runCalls]
  | succ m ih =>
    intro fuel base it w h1 h2 h3 hfuel
    obtain ⟨fuel, rfl⟩ : ∃ g, fuel = g + 1 := ⟨fuel - 1, by omega⟩
    have hne : ops.ne base it = true := h1 0 (by omega)
    have hc : (cleanup base w.tok w.user).result = .normal () := h3 0 (by omega)
    rw [detail.cleanup_loop]
    simp only [hne, if_true, hc]
    exact ih fuel (ops.next base) it _ (fun k hk => h1 (k + 1) (by omega)) h2
      (fun k hk => h3 (k + 1) (by omega)) (by omega)

/-- In a range of length `n`, the positions before position `m ≤ n` differ
from it, and it equals itself. -/
theorem isRange_prefix {Iter : Type} (ops : IterOps Iter) (it last : Iter) (n m : Nat)
    (h : IsRange ops it last n) (hm : m ≤ n) :
    (∀ k, k < m → ops.ne (ops.advance k it) (ops.advance m it) = true) ∧
    ops.ne (ops.advance m it) (ops.advance m it) = false := by
  obtain ⟨_, _, h3⟩ := h
  refine ⟨?_, (h3 m m hm hm).mpr rfl⟩
  intro k hk
  cases hne : ops.ne (ops.advance k it) (ops.advance m it) with
  | true => rfl
  | false =>
    have := (h3 k m (by omega) hm).mp hne
    omega

/-- The reducer loop computes the left fold when `f` computes `g`. -/
theorem accumulate_n_call_fold {ε σ Iter Elem T : Type} (ops : IterOps Iter)
    (deref : Iter → Elem) (f : T → Elem → CancelToken → σ → Outcome ε σ T)
    (g : T → Elem → T) (hf : ∀ a x t s, (f a x t s).result = .normal (g a x))
    (count : Nat) : ∀ (it : Iter) (init : T) (w : World σ (CallAcc T Elem)),
    (detail.accumulate_n.call ops deref f it count init w).1 =
      .normal (List.foldl g init (firstElems ops deref it count)) := by
  induction count with
  | zero => intro it init w; rfl
  | succ count ih =>
    intro it init w
    rw [detail.accumulate_n.call]
    simp only [hf]
    rw [ih]
    simp [firstElems, List.range_succ_eq_map, IterOps.advance, Function.comp_def]

/-- The indexed loop passes the running index, reduced modulo the width of
`std::size_t`, and never stops early when `f` never raises. -/
theorem loop_idx_n_call_trace {ε σ Iter Elem : Type} (ops : IterOps Iter)
    (deref : Iter → Elem) (f : Elem → Nat → CancelToken → σ → Outcome ε σ Unit)
    (hf : ∀ x i t s, (f x i t s).result = .normal ())
    (count : Nat) : ∀ (base_idx : Nat) (it : Iter) (w : World σ (CallIdx Elem)),
    base_idx < SIZE_MOD →
    (detail.loop_idx_n.call ops deref f base_idx it count w).1 =
        .normal (ops.advance count it) ∧
      (detail.loop_idx_n.call ops deref f base_idx it count w).2.trace =
        w.trace ++ idxCalls ops deref it (fun k => (base_idx + k) % SIZE_MOD) count := by
  induction count with
  | zero => intro base_idx it w _; simp [detail.loop_idx_n.call, idxCalls, IterOps.advance]
  | succ count ih =>
    intro base_idx it w hb
    rw [detail.loop_idx_n.call]
    simp only [hf]
    have hlt : (base_idx + 1) % SIZE_MOD < SIZE_MOD := Nat.mod_lt _ (by decide)
    obtain ⟨h1, h2⟩ := ih ((base_idx + 1) % SIZE_MOD) (ops.next it)
      (w.after (.f (deref it) base_idx) (f (deref it) base_idx w.tok w.user)) hlt
    refine ⟨h1, ?_⟩
    rw [h2]
    simp only [idxCalls, World.after, List.range_succ_eq_map, List.map_cons, List.map_map,
      IterOps.advance, Function.comp_def, List.append_assoc, List.singleton_append,
      Nat.add_zero, Nat.mod_eq_of_lt hb]
    congr 2
    apply List.map_congr_left
    intro k _
    congr 1
    rw [Nat.mod_add_mod]
    congr 1
    omega

/-- The token-aware plain loop stops at the first position where the token is
observed cancelled. -/
theorem loop_call_tok_stops {ε σ Iter : Type} (ops : IterOps Iter) (f : Callback ε σ Iter)
    (p : Nat) : ∀ (fuel : Nat) (it last : Iter) (w : World σ (Call Iter)),
    (∀ k, k ≤ p → ops.ne (ops.advance k it) last = true) →
    (∀ k, k < p → (runCalls ops Call.f f k it w).tok.was_cancelled = false) →
    (runCalls ops Call.f f p it w).tok.was_cancelled = true →
    (∀ k, k < p → CompletesAt f (ops.advance k it) (runCalls ops Call.f f k it w)) →
    p < fuel →
    detail.loop.call_tok ops f fuel it last w =
      some (.normal (ops.advance p it), runCalls ops Call.f f p it w) := by
  induction p with
  | zero =>
    intro fuel it last w h1 _ h3 _ hfuel
    obtain ⟨fuel, rfl⟩ : ∃ g, fuel = g + 1 := ⟨fuel - 1, by omega⟩
    have hne : ops.ne it last = true := h1 0 (by omega)
    have hc : w.tok.was_cancelled = true := h3
    simp [detail.loop.call_tok, hne, hc, IterOps.advance, runCalls]
  | succ p ih =>
    intro fuel it last w h1 h2 h3 h4 hfuel
    obtain ⟨fuel, rfl⟩ : ∃ g, fuel = g + 1 := ⟨fuel - 1, by omega⟩
    have hne : ops.ne it last = true := h1 0 (by omega)
    have hnc : w.tok.was_cancelled = false := h2 0 (by omega)
    have hc : (f it w.tok w.user).result = .normal () := h4 0 (by omega)
    rw [detail.loop.call_tok]
    simp only [hne, if_true, hnc, Bool.false_eq_true, if_false, hc]
    exact ih fuel (ops.next it) last _ (fun k hk => h1 (k + 1) (by omega))
      (fun k hk => h2 (k + 1) (by omega)) h3 (fun k hk => h4 (k + 1) (by omega))
      (by omega)

/-- The token-aware count-driven loop stops after `p ≤ n` positions when the
token is observed cancelled there (or the count is used up). -/
theorem loop_n_call_tok_stops {ε σ Iter : Type} (ops : IterOps Iter)
    (f : Callback ε σ Iter) (p : Nat) :
    ∀ (n : Nat) (it : Iter) (w : World σ (Call Iter)),
    p ≤ n →
    (∀ k, k < p → (runCalls ops Call.f f k it w).tok.was_cancelled = false) →
    (p < n → (runCalls ops Call.f f p it w).tok.was_cancelled = true) →
    (∀ k, k < p → CompletesAt f (ops.advance k it) (runCalls ops Call.f f k it w)) →
    detail.loop_n.call_tok ops f it n w =
      (.normal (ops.advance p it), runCalls ops Call.f f p it w) := by
  induction p with
  | zero =>
    intro n it w _ _ h3 _
    cases n with
    | zero => rfl
    | succ n =>
      have hc : w.tok.was_cancelled = true := h3 (by omega)
      simp [detail.loop_n.call_tok, hc, IterOps.advance, runCalls]
  | succ p ih =>
    intro n it w hp h2 h3 h4
    obtain ⟨n, rfl⟩ : ∃ g, n = g + 1 := ⟨n - 1, by omega⟩
    have hnc : w.tok.was_cancelled = false := h2 0 (by omega)
    have hc : (f it w.tok w.user).result = .normal () := h4 0 (by omega)
    rw [detail.loop_n.call_tok]
    simp only [hnc, Bool.false_eq_true, if_false, hc]
    exact ih n (ops.next it) _ (by omega) (fun k hk => h2 (k + 1) (by omega))
      (fun hlt => h3 (by omega)) (fun k hk => h4 (k + 1) (by omega))

/-- While no invocation of `g` cancels the token, it stays not cancelled. -/
theorem runCalls_tok_not_cancelled {ε σ κ Iter : Type} (ops : IterOps Iter)
    (ev : Iter → κ) (g : Callback ε σ Iter) (it : Iter) (w : World σ κ)
    (h0 : w.tok.was_cancelled = false) (j : Nat)
    (h : ∀ k, k < j →
      (g (ops.advance k it) (runCalls ops ev g k it w).tok
        (runCalls ops ev g k it w).user).cancel = false) :
    ∀ k, k ≤ j → (runCalls ops ev g k it w).tok.was_cancelled = false := by
  intro k
  induction k with
  | zero => intro _; exact h0
  | succ k ih =>
    intro hk
    rw [runCalls_succ_last]
    simp only [World.after, h k (by omega), Bool.false_eq_true, if_false]
    exact ih (by omega)

theorem calls2_succ_front {Iter FwdIter : Type} (ops : IterOps Iter)
    (dops : IterOps FwdIter) (it : Iter) (dest : FwdIter) (k : Nat) :
    calls2 ops dops it dest (k + 1) =
      Call2.f it dest :: calls2 ops dops (ops.next it) (dops.next dest) k := by
  simp [calls2, List.range_succ_eq_map, IterOps.advance, Function.comp_def]

theorem runCalls2_trace {ε σ Iter FwdIter : Type} (ops : IterOps Iter)
    (dops : IterOps FwdIter) (f : Callback2 ε σ Iter FwdIter) (k : Nat) (it : Iter)
    (dest : FwdIter) (w : World σ (Call2 Iter FwdIter)) :
    (runCalls2 ops dops f k it dest w).trace = w.trace ++ calls2 ops dops it dest k := by
  induction k generalizing it dest w with
  | zero => simp [runCalls2, calls2]
  | succ k ih =>
    rw [runCalls2, ih, calls2_succ_front]
    simp [World.after]

/-- The `try` block of the destination overload is left with `dest` at
position `m` and the failure raised there. -/
theorem try_block_dest_raises {ε σ Iter FwdIter : Type} (ops : IterOps Iter)
    (dops : IterOps FwdIter) (f : Callback2 ε σ Iter FwdIter) (e : ε) (m : Nat) :
    ∀ (fuel : Nat) (it last : Iter) (dest : FwdIter) (w : World σ (Call2 Iter FwdIter)),
    (∀ k, k ≤ m → ops.ne (ops.advance k it) last = true) →
    (∀ k, k < m →
      (f (ops.advance k it) (dops.advance k dest) (runCalls2 ops dops f k it dest w).tok
        (runCalls2 ops dops f k it dest w).user).result = .normal ()) →
    (f (ops.advance m it) (dops.advance m dest) (runCalls2 ops dops f m it dest w).tok
        (runCalls2 ops dops f m it dest w).user).result = .raised e →
    m < fuel →
    detail.loop_with_cleanup.try_block_dest ops dops f fuel it last dest w =
      some (some e, dops.advance m dest, runCalls2 ops dops f (m + 1) it dest w) := by
  induction m with
  | zero =>
    intro fuel it last dest w h1 _ h3 hfuel
    obtain ⟨fuel, rfl⟩ : ∃ g, fuel = g + 1 := ⟨fuel - 1, by omega⟩
    have hne : ops.ne it last = true := h1 0 (by omega)
    have hr : (f it dest w.tok w.user).result = .raised e := h3
    rw [detail.loop_with_cleanup.try_block_dest]
    simp only [hne, if_true, hr]
    rfl
  | succ m ih =>
    intro fuel it last dest w h1 h2 h3 hfuel
    obtain ⟨fuel, rfl⟩ : ∃ g, fuel = g + 1 := ⟨fuel - 1, by omega⟩
    have hne : ops.ne it last = true := h1 0 (by omega)
    have hc : (f it dest w.tok w.user).result = .normal () := h2 0 (by omega)
    rw [detail.loop_with_cleanup.try_block_dest]
    simp only [hne, if_true, hc]
    exact ih fuel (ops.next it) last (dops.next dest) _ (fun k hk => h1 (k + 1) (by omega))
      (fun k hk => h2 (k + 1) (by omega)) h3 (by omega)

/-- The `try` block of `call_with_token` is left at position `m` with the
failure raised there, when the token is not observed cancelled before. -/
theorem try_block_with_token_raises {ε σ Iter : Type} (ops : IterOps Iter)
    (f : Callback ε σ Iter) (e : ε) (m : Nat) :
    ∀ (count : Nat) (it : Iter) (w : World σ (Call Iter)),
    m < count →
    (∀ k, k ≤ m → (runCalls ops Call.f f k it w).tok.was_cancelled = false) →
    (∀ k, k < m → CompletesAt f (ops.advance k it) (runCalls ops Call.f f k it w)) →
    RaisesAt f (ops.advance m it) (runCalls ops Call.f f m it w) e →
    detail.loop_with_cleanup_n.try_block_with_token ops f it count w =
      (some e, ops.advance m it, runCalls ops Call.f f (m + 1) it w) := by
  induction m with
  | zero =>
    intro count it w hm h1 _ h3
    obtain ⟨count, rfl⟩ : ∃ g, count = g + 1 := ⟨count - 1, by omega⟩
    have hnc : w.tok.was_cancelled = false := h1 0 (by omega)
    have hr : (f it w.tok w.user).result = .raised e := h3
    rw [detail.loop_with_cleanup_n.try_block_with_token]
    simp only [hnc, Bool.false_eq_true, if_false, hr]
    rfl
  | succ m ih =>
    intro count it w hm h1 h2 h3
    obtain ⟨count, rfl⟩ : ∃ g, count = g + 1 := ⟨count - 1, by omega⟩
    have hnc : w.tok.was_cancelled = false := h1 0 (by omega)
    have hc : (f it w.tok w.user).result = .normal () := h2 0 (by omega)
    rw [detail.loop_with_cleanup_n.try_block_with_token]
    simp only [hnc, Bool.false_eq_true, if_false, hc]
    exact ih count (ops.next it) _ (by omega) (fun k hk => h1 (k + 1) (by omega))
      (fun k hk => h2 (k + 1) (by omega)) h3

/-! ## The claims -/

/-- C1. `loop_with_cleanup(it, last, f, cleanup)` over a range of length `n`:
if `f` returns on the positions `0 .. m-1` and raises `e` at position `m < n`
(and `cleanup` does not raise), the call ends in the failure `e`, and the
invocations made are `f` on the positions `0 .. m` followed by `cleanup` on
the positions `0 .. m-1`, each in increasing order: `cleanup` runs exactly `m`
times, on no position `≥ m`, and `f` runs on no position `> m`. -/
theorem loop_with_cleanup_rolls_back_prefix {ε σ Iter : Type} (ops : IterOps Iter)
    (f cleanup : Callback ε σ Iter) (it last : Iter) (n m fuel : Nat) (e : ε)
    (w : World σ (Call Iter))
    (hr : IsRange ops it last n) (hm : m < n)
    (hok : ∀ k, k < m →
      CompletesAt f (ops.advance k it) (runCalls ops Call.f f k it w))
    (hraise : RaisesAt f (ops.advance m it) (runCalls ops Call.f f m it w) e)
    (hcl : NeverRaises cleanup) (hfuel : m < fuel) :
    ∃ w', loop_with_cleanup ops fuel it last f cleanup w = some (.raised e, w') ∧
      w'.trace = w.trace ++ calls ops Call.f it (m + 1) ++ calls ops Call.cleanup it m := by
  have htry := try_block_raises ops f e m fuel it last w
    (fun k hk => hr.1 k (by omega)) hok hraise hfuel
  obtain ⟨hd, hs⟩ := isRange_prefix ops it last n m hr (by omega)
  have hcu := cleanup_loop_completes ops Call.cleanup cleanup m fuel it (ops.advance m it)
    (runCalls ops Call.f f (m + 1) it w) hd hs (fun k _ => hcl _ _ _) hfuel
  refine ⟨runCalls ops Call.cleanup cleanup m it (runCalls ops Call.f f (m + 1) it w),
    ?_, ?_⟩
  · simp [loop_with_cleanup, detail.loop_with_cleanup.call, htry, detail.catch_all, hcu]
  · rw [runCalls_trace, runCalls_trace]

/-- C1, at a concrete input: over `[0, 4)`, `f` raises at position 2. -/
theorem loop_with_cleanup_rolls_back_prefix_witness :
    ∃ w', loop_with_cleanup natOps 5 0 4 (raiseAt 2 "boom") noop World.start =
        some (.raised "boom", w') ∧
      w'.trace = [.f 0, .f 1, .f 2, .cleanup 0, .cleanup 1] :=
  loop_with_cleanup_rolls_back_prefix natOps (raiseAt 2 "boom") noop 0 4 4 2 5 "boom"
    World.start (natOps_isRange 0 4) (by decide)
    (by intro k hk; simp [CompletesAt, raiseAt, natOps_advance]; omega)
    (by simp [RaisesAt, raiseAt, natOps_advance])
    (by intro p t s; rfl) (by decide)

/-- C2. `loop(begin, end, f)` with a callback that never raises, over a range
of length `n`: the invocations made are exactly `f` on the positions
`0 .. n-1` in increasing order, and the iterator returned is position `n`,
which compares equal to `end`. -/
theorem loop_visits_every_position_once {ε σ Iter : Type} (ops : IterOps Iter)
    (f : Callback ε σ Iter) (begin_ end_ : Iter) (n fuel : Nat)
    (w : World σ (Call Iter))
    (hr : IsRange ops begin_ end_ n) (hf : NeverRaises f) (hfuel : n < fuel) :
    ∃ w', loop ops fuel begin_ end_ f w = some (.normal (ops.advance n begin_), w') ∧
      ops.ne (ops.advance n begin_) end_ = false ∧
      w'.trace = w.trace ++ calls ops Call.f begin_ n := by
  refine ⟨runCalls ops Call.f f n begin_ w, ?_, hr.2.1, runCalls_trace _ _ _ _ _ _⟩
  exact loop_call_completes ops f n fuel begin_ end_ w hr.1 hr.2.1
    (fun k _ => hf _ _ _) hfuel

/-- C2, at a concrete input: the range `[3, 7)`. -/
theorem loop_visits_every_position_once_witness :
    ∃ w', loop natOps 5 3 7 noop World.start = some (.normal 7, w') ∧
      natOps.ne 7 7 = false ∧ w'.trace = [.f 3, .f 4, .f 5, .f 6] :=
  loop_visits_every_position_once natOps noop 3 (3 + 4) 4 5 World.start
    (natOps_isRange 3 4) (by intro p t s; rfl) (by decide)

/-- C3. Generic `loop_n(it, n, f)` with a callback that never raises: for
every `n`, the invocations made are exactly `f` on the positions
`it, it+1, ..., it+n-1` in that order, and the iterator returned is `it`
after `n` single steps. -/
theorem loop_n_visits_count_positions {ε σ Iter : Type} (ops : IterOps Iter)
    (f : Callback ε σ Iter) (it : Iter) (n : Nat) (w : World σ (Call Iter))
    (hf : NeverRaises f) :
    (loop_n ops it n f w).1 = .normal (ops.advance n it) ∧
      (loop_n ops it n f w).2.trace = w.trace ++ calls ops Call.f it n := by
  have h := loop_n_call_completes ops f n it w (fun k _ => hf _ _ _)
  simp [loop_n, h, runCalls_trace]

/-- C3, at a concrete input: three steps from position 5. -/
theorem loop_n_visits_count_positions_witness :
    (loop_n natOps 5 3 noop World.start).1 = .normal 8 ∧
      (loop_n natOps 5 3 noop World.start).2.trace = [.f 5, .f 6, .f 7] :=
  loop_n_visits_count_positions natOps noop 5 3 World.start (by intro p t s; rfl)

/-- C4. `accumulate_n(it, count, init, f)` is the strict left fold of `f` over
the first `count` elements starting from `init`,
`f(...f(f(init, x0), x1)..., x_{count-1})`, for every `f` that computes a
function `g` of its two arguments (no law such as associativity or
commutativity is asked of `g`). -/
theorem accumulate_n_is_left_fold {ε σ Iter Elem T : Type} (ops : IterOps Iter)
    (deref : Iter → Elem) (f : T → Elem → CancelToken → σ → Outcome ε σ T)
    (g : T → Elem → T) (it : Iter) (count : Nat) (init : T)
    (w : World σ (CallAcc T Elem))
    (hf : ∀ a x t s, (f a x t s).result = .normal (g a x)) :
    (accumulate_n ops deref it count init f w).1 =
      .normal (List.foldl g init (firstElems ops deref it count)) :=
  accumulate_n_call_fold ops deref f g hf count it init w

/-- C4, at the inputs of the specification: over `[1, 2, 3, 4]` the sum from 0
is 10 and the product from 1 is 24; with the non-commutative, non-associative
`g a x = 2 * a + x` from 0 the result is `2*(2*(2*(2*0+1)+2)+3)+4 = 26`. -/
theorem accumulate_n_is_left_fold_witness :
    (accumulate_n natOps (arrayDeref [1, 2, 3, 4]) 0 4 0 (pureFn (fun a x => a + x))
        World.start).1 = .normal 10 ∧
    (accumulate_n natOps (arrayDeref [1, 2, 3, 4]) 0 4 1 (pureFn (fun a x => a * x))
        World.start).1 = .normal 24 ∧
    (accumulate_n natOps (arrayDeref [1, 2, 3, 4]) 0 4 0 (pureFn (fun a x => 2 * a + x))
        World.start).1 = .normal 26 :=
  ⟨accumulate_n_is_left_fold natOps (arrayDeref [1, 2, 3, 4]) (pureFn (fun a x => a + x))
      (fun a x => a + x) 0 4 0 World.start (fun _ _ _ _ => rfl),
   accumulate_n_is_left_fold natOps (arrayDeref [1, 2, 3, 4]) (pureFn (fun a x => a * x))
      (fun a x => a * x) 0 4 1 World.start (fun _ _ _ _ => rfl),
   accumulate_n_is_left_fold natOps (arrayDeref [1, 2, 3, 4])
      (pureFn (fun a x => 2 * a + x)) (fun a x => 2 * a + x) 0 4 0 World.start
      (fun _ _ _ _ => rfl)⟩

/-- C5. `loop(begin, end, tok, f)` over a range of length `n`: the token is
read before every call of `f`; if `p < n` is the first position at which it is
observed cancelled, `f` has been invoked exactly on the positions `0 .. p-1`
and the iterator returned is position `p`.  In particular, with a token
cancelled on entry `f` is never invoked and `begin` is returned, whatever the
range. -/
theorem loop_tok_stops_at_first_cancelled {ε σ Iter : Type} (ops : IterOps Iter)
    (f : Callback ε σ Iter) (begin_ end_ : Iter) (n p fuel : Nat)
    (w : World σ (Call Iter))
    (hr : IsRange ops begin_ end_ n) (hp : p < n)
    (hnot : ∀ k, k < p → (runCalls ops Call.f f k begin_ w).tok.was_cancelled = false)
    (hcan : (runCalls ops Call.f f p begin_ w).tok.was_cancelled = true)
    (hok : ∀ k, k < p →
      CompletesAt f (ops.advance k begin_) (runCalls ops Call.f f k begin_ w))
    (hfuel : p < fuel) :
    (∃ w', loop_tok ops fuel begin_ end_ f w = some (.normal (ops.advance p begin_), w') ∧
      w'.trace = w.trace ++ calls ops Call.f begin_ p) ∧
    (∀ (fuel0 : Nat) (last0 : Iter) (w0 : World σ (Call Iter)), 0 < fuel0 →
      w0.tok.was_cancelled = true →
      loop_tok ops fuel0 begin_ last0 f w0 = some (.normal begin_, w0)) := by
  constructor
  · refine ⟨runCalls ops Call.f f p begin_ w, ?_, runCalls_trace _ _ _ _ _ _⟩
    exact loop_call_tok_stops ops f p fuel begin_ end_ w
      (fun k hk => hr.1 k (by omega)) hnot hcan hok hfuel
  · intro fuel0 last0 w0 hfuel0 hc
    obtain ⟨fuel0, rfl⟩ : ∃ g, fuel0 = g + 1 := ⟨fuel0 - 1, by omega⟩
    cases hne : ops.ne begin_ last0 <;> simp [loop_tok, detail.loop.call_tok, hne, hc]

/-- C5, at a concrete input: over `[0, 4)`, `f` cancels the token at position
1, so it is observed cancelled at position 2. -/
theorem loop_tok_stops_at_first_cancelled_witness :
    (∃ w', loop_tok natOps 5 0 4 (cancelAt 1) World.start = some (.normal 2, w') ∧
      w'.trace = [.f 0, .f 1]) ∧
    (∀ (fuel0 : Nat) (last0 : Nat) (w0 : World Unit (Call Nat)), 0 < fuel0 →
      w0.tok.was_cancelled = true →
      loop_tok natOps fuel0 0 last0 (cancelAt 1) w0 = some (.normal 0, w0)) :=
  loop_tok_stops_at_first_cancelled natOps (cancelAt 1) 0 4 4 2 5 World.start
    (natOps_isRange 0 4) (by decide) (by decide) (by decide)
    (by intro k _; rfl) (by decide)

/-- C6. Token-aware generic `loop_n(it, n, tok, f)`: if the token is not
cancelled on entry and is first cancelled by the call of `f` on position
`j < n`, then `f` is invoked exactly on the positions `0 .. j`, nothing is
invoked afterwards, and the iterator returned is `it` advanced by `j + 1`. -/
theorem loop_n_tok_stops_after_cancelling_call {ε σ Iter : Type} (ops : IterOps Iter)
    (f : Callback ε σ Iter) (it : Iter) (n j : Nat) (w : World σ (Call Iter))
    (hj : j < n) (h0 : w.tok.was_cancelled = false)
    (hbefore : ∀ k, k < j →
      (f (ops.advance k it) (runCalls ops Call.f f k it w).tok
        (runCalls ops Call.f f k it w).user).cancel = false)
    (hat : (f (ops.advance j it) (runCalls ops Call.f f j it w).tok
        (runCalls ops Call.f f j it w).user).cancel = true)
    (hok : ∀ k, k ≤ j →
      CompletesAt f (ops.advance k it) (runCalls ops Call.f f k it w)) :
    (loop_n_tok ops it n f w).1 = .normal (ops.advance (j + 1) it) ∧
      (loop_n_tok ops it n f w).2.trace = w.trace ++ calls ops Call.f it (j + 1) := by
  have hnc := runCalls_tok_not_cancelled ops Call.f f it w h0 j hbefore
  have hc : (runCalls ops Call.f f (j + 1) it w).tok.was_cancelled = true := by
    rw [runCalls_succ_last]
    simp [World.after, hat, CancelToken.cancel, CancelToken.was_cancelled]
  have h := loop_n_call_tok_stops ops f (j + 1) n it w (by omega)
    (fun k hk => hnc k (by omega)) (fun _ => hc) (fun k hk => hok k (by omega))
  simp [loop_n_tok, h, runCalls_trace]

/-- C6, at a concrete input: a count of 5 from position 0, `f` cancels the
token at position 2. -/
theorem loop_n_tok_stops_after_cancelling_call_witness :
    (loop_n_tok natOps 0 5 (cancelAt 2) World.start).1 = .normal 3 ∧
      (loop_n_tok natOps 0 5 (cancelAt 2) World.start).2.trace = [.f 0, .f 1, .f 2] :=
  loop_n_tok_stops_after_cancelling_call natOps (cancelAt 2) 0 5 2 World.start
    (by decide) rfl
    (by intro k hk; simp [cancelAt, natOps_advance]; omega)
    (by simp [cancelAt, natOps_advance])
    (by intro k _; rfl)

/-- C7. `loop_idx_n(base_idx, it, count, f)` with a callback that never raises:
there are exactly `count` calls, the `k`-th (`k = 0 .. count-1`, in increasing
`k`) is `f(*(it+k), base_idx + k)` with the index computed in `std::size_t`,
and the iterator returned is `it` advanced by `count`.  When
`base_idx + count` does not exceed the range of `std::size_t` the index is
`base_idx + k` itself. -/
theorem loop_idx_n_passes_running_index {ε σ Iter Elem : Type} (ops : IterOps Iter)
    (deref : Iter → Elem) (f : Elem → Nat → CancelToken → σ → Outcome ε σ Unit)
    (base_idx : Nat) (it : Iter) (count : Nat) (w : World σ (CallIdx Elem))
    (hf : ∀ x i t s, (f x i t s).result = .normal ())
    (hb : base_idx < SIZE_MOD) :
    (loop_idx_n ops deref base_idx it count f w).1 = .normal (ops.advance count it) ∧
    (loop_idx_n ops deref base_idx it count f w).2.trace =
      w.trace ++ idxCalls ops deref it (fun k => (base_idx + k) % SIZE_MOD) count ∧
    (base_idx + count ≤ SIZE_MOD →
      (loop_idx_n ops deref base_idx it count f w).2.trace =
        w.trace ++ idxCalls ops deref it (fun k => base_idx + k) count) := by
  obtain ⟨h1, h2⟩ := loop_idx_n_call_trace ops deref f hf count base_idx it w hb
  refine ⟨h1, h2, ?_⟩
  intro hle
  rw [loop_idx_n, h2]
  congr 1
  apply List.map_congr_left
  intro k hk
  rw [List.mem_range] at hk
  show CallIdx.f (deref (ops.advance k it)) ((base_idx + k) % SIZE_MOD) = _
  rw [Nat.mod_eq_of_lt (by omega)]

/-- C7, at a concrete input: three elements of `[10, 20, 30, 40]` from
position 1, with indices from 7. -/
theorem loop_idx_n_passes_running_index_witness :
    (loop_idx_n natOps (arrayDeref [10, 20, 30, 40]) 7 1 3 noopIdx World.start).1 =
      .normal 4 ∧
    (loop_idx_n natOps (arrayDeref [10, 20, 30, 40]) 7 1 3 noopIdx World.start).2.trace =
      [.f 20 7, .f 30 8, .f 40 9] ∧
    (7 + 3 ≤ SIZE_MOD →
      (loop_idx_n natOps (arrayDeref [10, 20, 30, 40]) 7 1 3 noopIdx World.start).2.trace =
        [.f 20 7, .f 30 8, .f 40 9]) :=
  loop_idx_n_passes_running_index natOps (arrayDeref [10, 20, 30, 40]) noopIdx 7 1 3
    World.start (fun _ _ _ _ => rfl) (by decide)

/-- C8. Two-iterator `loop_with_cleanup(it, last, dest, f, cleanup)` over a
source range of length `n` and as many destination positions: if
`f(it+k, dest+k)` returns for `k < m` and raises `e` at `k = m < n` (and
`cleanup` does not raise), the invocations made are `f` on the pairs
`0 .. m`, then `cleanup` on the destination positions
`dest, dest+1, ..., dest+m-1` in increasing order, exactly `m` of them, none on
a source position and none on a destination position from `dest+m` on; the
call ends in the failure `e`. -/
theorem loop_with_cleanup_dest_rolls_back_destination {ε σ Iter FwdIter : Type}
    (ops : IterOps Iter) (dops : IterOps FwdIter) (f : Callback2 ε σ Iter FwdIter)
    (cleanup : Callback ε σ FwdIter) (it last : Iter) (dest dlast : FwdIter)
    (n m fuel : Nat) (e : ε) (w : World σ (Call2 Iter FwdIter))
    (hr : IsRange ops it last n) (hd : IsRange dops dest dlast n) (hm : m < n)
    (hok : ∀ k, k < m →
      (f (ops.advance k it) (dops.advance k dest) (runCalls2 ops dops f k it dest w).tok
        (runCalls2 ops dops f k it dest w).user).result = .normal ())
    (hraise :
      (f (ops.advance m it) (dops.advance m dest) (runCalls2 ops dops f m it dest w).tok
        (runCalls2 ops dops f m it dest w).user).result = .raised e)
    (hcl : NeverRaises cleanup) (hfuel : m < fuel) :
    ∃ w', loop_with_cleanup_dest ops dops fuel it last dest f cleanup w =
        some (.raised e, w') ∧
      w'.trace = w.trace ++ calls2 ops dops it dest (m + 1) ++
        calls dops Call2.cleanup dest m := by
  have htry := try_block_dest_raises ops dops f e m fuel it last dest w
    (fun k hk => hr.1 k (by omega)) hok hraise hfuel
  obtain ⟨hdiff, hsame⟩ := isRange_prefix dops dest dlast n m hd (by omega)
  have hcu := cleanup_loop_completes dops Call2.cleanup cleanup m fuel dest
    (dops.advance m dest) (runCalls2 ops dops f (m + 1) it dest w) hdiff hsame
    (fun k _ => hcl _ _ _) hfuel
  refine ⟨runCalls dops Call2.cleanup cleanup m dest
    (runCalls2 ops dops f (m + 1) it dest w), ?_, ?_⟩
  · simp [loop_with_cleanup_dest, detail.loop_with_cleanup.call_dest, htry,
      detail.catch_all, hcu]
  · rw [runCalls_trace, runCalls2_trace]

/-- C8, at a concrete input: source `[0, 4)`, destination from 100, `f` raises
at the third pair. -/
theorem loop_with_cleanup_dest_rolls_back_destination_witness :
    ∃ w', loop_with_cleanup_dest natOps natOps 5 0 4 100 (raiseAt2 2 "boom") noop
        World.start = some (.raised "boom", w') ∧
      w'.trace = [.f 0 100, .f 1 101, .f 2 102, .cleanup 100, .cleanup 101] :=
  loop_with_cleanup_dest_rolls_back_destination natOps natOps (raiseAt2 2 "boom") noop
    0 4 100 (100 + 4) 4 2 5 "boom" World.start (natOps_isRange 0 4)
    (natOps_isRange 100 4) (by decide)
    (by intro k hk; simp [raiseAt2, natOps_advance]; omega)
    (by simp [raiseAt2, natOps_advance])
    (by intro p t s; rfl) (by decide)

/-- C9. `loop_with_cleanup_n_with_token(it, count, tok, f, cleanup)` over
`count` positions: if the token is not cancelled before and `f` raises `e` at
position `m < count` (and `cleanup` does not raise), then the call ends in the
failure `e`, the token is cancelled on exit, and the invocations made are `f`
on the positions `0 .. m` followed by `cleanup` on the positions `0 .. m-1` in
increasing order. -/
theorem loop_with_cleanup_n_with_token_cancels_and_rolls_back {ε σ Iter : Type}
    (ops : IterOps Iter) (f cleanup : Callback ε σ Iter) (it last : Iter)
    (count m fuel : Nat) (e : ε) (w : World σ (Call Iter))
    (hr : IsRange ops it last count) (hm : m < count)
    (htok : ∀ k, k ≤ m → (runCalls ops Call.f f k it w).tok.was_cancelled = false)
    (hok : ∀ k, k < m →
      CompletesAt f (ops.advance k it) (runCalls ops Call.f f k it w))
    (hraise : RaisesAt f (ops.advance m it) (runCalls ops Call.f f m it w) e)
    (hcl : NeverRaises cleanup) (hfuel : m < fuel) :
    ∃ w', loop_with_cleanup_n_with_token ops fuel it count f cleanup w =
        some (.raised e, w') ∧
      w'.tok.was_cancelled = true ∧
      w'.trace = w.trace ++ calls ops Call.f it (m + 1) ++ calls ops Call.cleanup it m := by
  have htry := try_block_with_token_raises ops f e m count it w hm htok hok hraise
  obtain ⟨hdiff, hsame⟩ := isRange_prefix ops it last count m hr (by omega)
  have hcu := cleanup_loop_completes ops Call.cleanup cleanup m fuel it (ops.advance m it)
    { runCalls ops Call.f f (m + 1) it w with
      tok := (runCalls ops Call.f f (m + 1) it w).tok.cancel }
    hdiff hsame (fun k _ => hcl _ _ _) hfuel
  refine ⟨runCalls ops Call.cleanup cleanup m it
    { runCalls ops Call.f f (m + 1) it w with
      tok := (runCalls ops Call.f f (m + 1) it w).tok.cancel }, ?_, ?_, ?_⟩
  · simp [loop_with_cleanup_n_with_token, detail.loop_with_cleanup_n.call_with_token, htry,
      detail.catch_all, hcu]
  · exact runCalls_tok_cancelled ops Call.cleanup cleanup m it _ rfl
  · rw [runCalls_trace]
    show (runCalls ops Call.f f (m + 1) it w).trace ++ _ = _
    rw [runCalls_trace]

/-- C9, at a concrete input: a count of 4 from position 0, `f` raises at
position 2; the token ends cancelled. -/
theorem loop_with_cleanup_n_with_token_cancels_and_rolls_back_witness :
    ∃ w', loop_with_cleanup_n_with_token natOps 5 0 4 (raiseAt 2 "boom") noop
        World.start = some (.raised "boom", w') ∧
      w'.tok.was_cancelled = true ∧
      w'.trace = [.f 0, .f 1, .f 2, .cleanup 0, .cleanup 1] :=
  loop_with_cleanup_n_with_token_cancels_and_rolls_back natOps (raiseAt 2 "boom") noop
    0 (0 + 4) 4 2 5 "boom" World.start (natOps_isRange 0 4) (by decide)
    (by decide)
    (by intro k hk; simp [CompletesAt, raiseAt, natOps_advance]; omega)
    (by simp [RaisesAt, raiseAt, natOps_advance])
    (by intro p t s; rfl) (by decide)

/-- C10, as stated, fails: over `[0, 4)` the callback returns at position 0 and
raises `"boom"` at position 1, the cleanup callback raises `"oops"` at position
0, and `loop_with_cleanup` ends in `"oops"`: the failure of `cleanup` leaves
the handler before `throw;` is reached. -/
theorem loop_with_cleanup_cleanup_failure_replaces :
    CompletesAt (raiseAt 1 "boom") 0 (World.start : World Unit (Call Nat)) ∧
    RaisesAt (raiseAt 1 "boom") 1
      (runCalls natOps Call.f (raiseAt 1 "boom") 1 0 World.start) "boom" ∧
    loop_with_cleanup natOps 5 0 4 (raiseAt 1 "boom") (raiseAt 0 "oops") World.start =
      some (.raised "oops",
        { user := (), tok := ⟨false⟩, trace := [.f 0, .f 1, .cleanup 0] }) ∧
    (Completion.raised "oops" : Completion String Nat) ≠ .raised "boom" := by
  refine ⟨rfl, rfl, rfl, by decide⟩

/-- C10, amended. `loop_with_cleanup(it, last, f, cleanup)` over a range of
length `n`: for every callback `f` and every cleanup callback that returns on
the positions it is asked to roll back, whenever `f` raises the failure `e`
(at a position `m < n`, having returned before), the call ends in exactly `e`. -/
theorem loop_with_cleanup_rethrows_callback_failure {ε σ Iter : Type}
    (ops : IterOps Iter) (f cleanup : Callback ε σ Iter) (it last : Iter)
    (n m fuel : Nat) (e : ε) (w : World σ (Call Iter))
    (hr : IsRange ops it last n) (hm : m < n)
    (hok : ∀ k, k < m →
      CompletesAt f (ops.advance k it) (runCalls ops Call.f f k it w))
    (hraise : RaisesAt f (ops.advance m it) (runCalls ops Call.f f m it w) e)
    (hcl : ∀ k, k < m →
      CompletesAt cleanup (ops.advance k it)
        (runCalls ops Call.cleanup cleanup k it (runCalls ops Call.f f (m + 1) it w)))
    (hfuel : m < fuel) :
    (loop_with_cleanup ops fuel it last f cleanup w).map Prod.fst = some (.raised e) := by
  have htry := try_block_raises ops f e m fuel it last w
    (fun k hk => hr.1 k (by omega)) hok hraise hfuel
  obtain ⟨hdiff, hsame⟩ := isRange_prefix ops it last n m hr (by omega)
  have hcu := cleanup_loop_completes ops Call.cleanup cleanup m fuel it (ops.advance m it)
    (runCalls ops Call.f f (m + 1) it w) hdiff hsame hcl hfuel
  simp [loop_with_cleanup, detail.loop_with_cleanup.call, htry, detail.catch_all, hcu]

/-- C10, amended, at a concrete input: over `[0, 4)`, `f` raises `"boom"` at
position 2 and `cleanup` would raise only at position 3, which is not rolled
back. -/
theorem loop_with_cleanup_rethrows_callback_failure_witness :
    (loop_with_cleanup natOps 5 0 4 (raiseAt 2 "boom") (raiseAt 3 "oops")
      World.start).map Prod.fst = some (.raised "boom") :=
  loop_with_cleanup_rethrows_callback_failure natOps (raiseAt 2 "boom")
    (raiseAt 3 "oops") 0 4 4 2 5 "boom" World.start (natOps_isRange 0 4) (by decide)
    (by intro k hk; simp [CompletesAt, raiseAt, natOps_advance]; omega)
    (by simp [RaisesAt, raiseAt, natOps_advance])
    (by intro k hk; simp [CompletesAt, raiseAt, natOps_advance]; omega)
    (by decide)

/-! ## Further lemmas on the generic kernels -/

/-- The plain loop ends in the failure raised at position `m`, after `f` has
run on the positions `0 .. m`. -/
theorem loop_call_raises {ε σ Iter : Type} (ops : IterOps Iter) (f : Callback ε σ Iter)
    (e : ε) (m : Nat) : ∀ (fuel : Nat) (it last : Iter) (w : World σ (Call Iter)),
    (∀ k, k ≤ m → ops.ne (ops.advance k it) last = true) →
    (∀ k, k < m → CompletesAt f (ops.advance k it) (runCalls ops Call.f f k it w)) →
    RaisesAt f (ops.advance m it) (runCalls ops Call.f f m it w) e →
    m < fuel →
    detail.loop.call ops f fuel it last w =
      some (.raised e, runCalls ops Call.f f (m + 1) it w) := by
  induction m with
  | zero =>
    intro fuel it last w h1 _ h3 hfuel
    obtain ⟨fuel, rfl⟩ : ∃ g, fuel = g + 1 := ⟨fuel - 1, by omega⟩
    have hne : ops.ne it last = true := h1 0 (by omega)
    have hr : (f it w.tok w.user).result = .raised e := h3
    rw [detail.loop.call]
    simp only [hne, if_true, hr]
    rfl
  | succ m ih =>
    intro fuel it last w h1 h2 h3 hfuel
    obtain ⟨fuel, rfl⟩ : ∃ g, fuel = g + 1 := ⟨fuel - 1, by omega⟩
    have hne : ops.ne it last = true := h1 0 (by omega)
    have hc : (f it w.tok w.user).result = .normal () := h2 0 (by omega)
    rw [detail.loop.call]
    simp only [hne, if_true, hc]
    exact ih fuel (ops.next it) last _ (fun k hk => h1 (k + 1) (by omega))
      (fun k hk => h2 (k + 1) (by omega)) h3 (by omega)

/-- The count-driven loop ends in the failure raised at position `m`, after
`f` has run on the positions `0 .. m`. -/
theorem loop_n_call_raises {ε σ Iter : Type} (ops : IterOps Iter) (f : Callback ε σ Iter)
    (e : ε) (m : Nat) : ∀ (n : Nat) (it : Iter) (w : World σ (Call Iter)),
    m < n →
    (∀ k, k < m → CompletesAt f (ops.advance k it) (runCalls ops Call.f f k it w)) →
    RaisesAt f (ops.advance m it) (runCalls ops Call.f f m it w) e →
    detail.loop_n.call ops f it n w = (.raised e, runCalls ops Call.f f (m + 1) it w) := by
  induction m with
  | zero =>
    intro n it w hm _ h3
    obtain ⟨n, rfl⟩ : ∃ g, n = g + 1 := ⟨n - 1, by omega⟩
    have hr : (f it w.tok w.user).result = .raised e := h3
    rw [detail.loop_n.call]
    simp only [hr]
    rfl
  | succ m ih =>
    intro n it w hm h2 h3
    obtain ⟨n, rfl⟩ : ∃ g, n = g + 1 := ⟨n - 1, by omega⟩
    have hc : (f it w.tok w.user).result = .normal () := h2 0 (by omega)
    rw [detail.loop_n.call]
    simp only [hc]
    exact ih n (ops.next it) _ (by omega) (fun k hk => h2 (k + 1) (by omega)) h3

/-- The `try` block of `call_with_token` is left normally after `p ≤ count`
positions when the token is observed cancelled there (or the count is used
up). -/
theorem try_block_with_token_stops {ε σ Iter : Type} (ops : IterOps Iter)
    (f : Callback ε σ Iter) (p : Nat) :
    ∀ (count : Nat) (it : Iter) (w : World σ (Call Iter)),
    p ≤ count →
    (∀ k, k < p → (runCalls ops Call.f f k it w).tok.was_cancelled = false) →
    (p < count → (runCalls ops Call.f f p it w).tok.was_cancelled = true) →
    (∀ k, k < p → CompletesAt f (ops.advance k it) (runCalls ops Call.f f k it w)) →
    detail.loop_with_cleanup_n.try_block_with_token ops f it count w =
      (none, ops.advance p it, runCalls ops Call.f f p it w) := by
  induction p with
  | zero =>
    intro count it w _ _ h3 _
    cases count with
    | zero => rfl
    | succ count =>
      have hc : w.tok.was_cancelled = true := h3 (by omega)
      simp [detail.loop_with_cleanup_n.try_block_with_token, hc, IterOps.advance, runCalls]
  | succ p ih =>
    intro count it w hp h2 h3 h4
    obtain ⟨count, rfl⟩ : ∃ g, count = g + 1 := ⟨count - 1, by omega⟩
    have hnc : w.tok.was_cancelled = false := h2 0 (by omega)
    have hc : (f it w.tok w.user).result = .normal () := h4 0 (by omega)
    rw [detail.loop_with_cleanup_n.try_block_with_token]
    simp only [hnc, Bool.false_eq_true, if_false, hc]
    exact ih count (ops.next it) _ (by omega) (fun k hk => h2 (k + 1) (by omega))
      (fun hlt => h3 (by omega)) (fun k hk => h4 (k + 1) (by omega))

/-! ## The claims, continued -/

/-- C11. Basic kernels `loop` and `loop_n` (no cleanup), over a range of length
`n`: if `f` returns on the positions `0 .. m-1` and raises `e` at position
`m < n`, each kernel ends in the failure `e`, and the invocations it made are
exactly `f` on the positions `0 .. m`, in order: nothing runs after the
failure, and no other callback runs. -/
theorem basic_kernels_propagate_failure {ε σ Iter : Type} (ops : IterOps Iter)
    (f : Callback ε σ Iter) (it last : Iter) (n m fuel : Nat) (e : ε)
    (w : World σ (Call Iter))
    (hr : IsRange ops it last n) (hm : m < n)
    (hok : ∀ k, k < m →
      CompletesAt f (ops.advance k it) (runCalls ops Call.f f k it w))
    (hraise : RaisesAt f (ops.advance m it) (runCalls ops Call.f f m it w) e)
    (hfuel : m < fuel) :
    (∃ w', loop ops fuel it last f w = some (.raised e, w') ∧
      w'.trace = w.trace ++ calls ops Call.f it (m + 1)) ∧
    (∃ w', loop_n ops it n f w = (.raised e, w') ∧
      w'.trace = w.trace ++ calls ops Call.f it (m + 1)) := by
  refine ⟨⟨runCalls ops Call.f f (m + 1) it w, ?_, runCalls_trace _ _ _ _ _ _⟩,
    ⟨runCalls ops Call.f f (m + 1) it w, ?_, runCalls_trace _ _ _ _ _ _⟩⟩
  · exact loop_call_raises ops f e m fuel it last w (fun k hk => hr.1 k (by omega))
      hok hraise hfuel
  · exact loop_n_call_raises ops f e m n it w hm hok hraise

/-- C11, at a concrete input: over `[0, 4)`, `f` raises at position 2. -/
theorem basic_kernels_propagate_failure_witness :
    (∃ w', loop natOps 5 0 4 (raiseAt 2 "boom") World.start = some (.raised "boom", w') ∧
      w'.trace = [.f 0, .f 1, .f 2]) ∧
    (∃ w', loop_n natOps 0 4 (raiseAt 2 "boom") World.start = (.raised "boom", w') ∧
      w'.trace = [.f 0, .f 1, .f 2]) :=
  basic_kernels_propagate_failure natOps (raiseAt 2 "boom") 0 4 4 2 5 "boom" World.start
    (natOps_isRange 0 4) (by decide)
    (by intro k hk; simp [CompletesAt, raiseAt, natOps_advance]; omega)
    (by simp [RaisesAt, raiseAt, natOps_advance])
    (by decide)

/-- C12. Zero-length sub-ranges perform no work: `loop` with `begin == end`,
and generic `loop_n`, `loop_idx_n` and `loop_with_cleanup_n` with a count of 0,
return the start iterator and leave the world as it was (no invocation of `f`
or `cleanup` is recorded); `accumulate_n` with a count of 0 returns `init`,
again with no invocation of `f`. -/
theorem zero_length_ranges_do_no_work {ε σ Iter Elem T : Type} (ops : IterOps Iter)
    (deref : Iter → Elem) (f cleanup : Callback ε σ Iter)
    (fi : Elem → Nat → CancelToken → σ → Outcome ε σ Unit)
    (fa : T → Elem → CancelToken → σ → Outcome ε σ T)
    (begin_ end_ it : Iter) (base_idx fuel : Nat) (init : T)
    (w : World σ (Call Iter)) (wi : World σ (CallIdx Elem))
    (wa : World σ (CallAcc T Elem))
    (hempty : ops.ne begin_ end_ = false) (hfuel : 0 < fuel) :
    loop ops fuel begin_ end_ f w = some (.normal begin_, w) ∧
    loop_n ops it 0 f w = (.normal it, w) ∧
    loop_idx_n ops deref base_idx it 0 fi wi = (.normal it, wi) ∧
    (∀ fuel0, loop_with_cleanup_n ops fuel0 it 0 f cleanup w = some (.normal it, w)) ∧
    accumulate_n ops deref it 0 init fa wa = (.normal init, wa) := by
  obtain ⟨fuel, rfl⟩ : ∃ g, fuel = g + 1 := ⟨fuel - 1, by omega⟩
  refine ⟨?_, rfl, rfl, fun _ => rfl, rfl⟩
  simp [loop, detail.loop.call, hempty]

/-- C12, at a concrete input: the empty range `[3, 3)` and counts of 0. -/
theorem zero_length_ranges_do_no_work_witness :
    loop natOps 1 3 3 noop World.start = some (.normal 3, World.start) ∧
    loop_n natOps 3 0 noop World.start = (.normal 3, World.start) ∧
    loop_idx_n natOps (arrayDeref [1, 2]) 7 3 0 noopIdx World.start =
      (.normal 3, World.start) ∧
    (∀ fuel0, loop_with_cleanup_n natOps fuel0 3 0 noop (raiseAt 0 "oops") World.start =
      some (.normal 3, World.start)) ∧
    accumulate_n natOps (arrayDeref [1, 2]) 3 0 5 (pureFn (fun a x => a + x))
      World.start = (.normal 5, World.start) :=
  zero_length_ranges_do_no_work natOps (arrayDeref [1, 2]) noop (raiseAt 0 "oops")
    noopIdx (pureFn (fun a x => a + x)) 3 3 3 7 1 5 World.start World.start World.start
    (by decide) (by decide)

/-- C13. `loop_with_cleanup_n_with_token(it, count, tok, f, cleanup)`: if the
token is first observed cancelled at position `p < count` and `f` returned on
the positions before, the call succeeds, returns position `p` (`it` advanced by
the `p` elements processed), and the invocations made are `f` on the positions
`0 .. p-1` only: `cleanup` is invoked on no position. -/
theorem loop_with_cleanup_n_with_token_cancellation_is_not_failure {ε σ Iter : Type}
    (ops : IterOps Iter) (f cleanup : Callback ε σ Iter) (it : Iter)
    (count p fuel : Nat) (w : World σ (Call Iter))
    (hp : p < count)
    (hnot : ∀ k, k < p → (runCalls ops Call.f f k it w).tok.was_cancelled = false)
    (hcan : (runCalls ops Call.f f p it w).tok.was_cancelled = true)
    (hok : ∀ k, k < p →
      CompletesAt f (ops.advance k it) (runCalls ops Call.f f k it w)) :
    ∃ w', loop_with_cleanup_n_with_token ops fuel it count f cleanup w =
        some (.normal (ops.advance p it), w') ∧
      w'.trace = w.trace ++ calls ops Call.f it p := by
  have h := try_block_with_token_stops ops f p count it w (by omega) hnot
    (fun _ => hcan) hok
  refine ⟨runCalls ops Call.f f p it w, ?_, runCalls_trace _ _ _ _ _ _⟩
  simp [loop_with_cleanup_n_with_token, detail.loop_with_cleanup_n.call_with_token, h]

/-- C13, at a concrete input: a count of 5 from position 0, `f` cancels the
token at position 1, so it is observed cancelled at position 2; the cleanup
callback would raise if it were invoked. -/
theorem loop_with_cleanup_n_with_token_cancellation_is_not_failure_witness :
    ∃ w', loop_with_cleanup_n_with_token natOps 5 0 5 (cancelAt 1) (raiseAt 0 "oops")
        World.start = some (.normal 2, w') ∧
      w'.trace = [.f 0, .f 1] :=
  loop_with_cleanup_n_with_token_cancellation_is_not_failure natOps (cancelAt 1)
    (raiseAt 0 "oops") 0 5 2 5 World.start (by decide) (by decide) (by decide)
    (by intro k _; rfl)

/-! ## Lemmas on the chunked kernels -/

theorem fPositions_append (a b : List PCall) :
    fPositions (a ++ b) = fPositions a ++ fPositions b := by
  simp [fPositions]

theorem prefetchTargets_append (a b : List PCall) :
    prefetchTargets (a ++ b) = prefetchTargets a ++ prefetchTargets b := by
  simp [prefetchTargets]

theorem fPositions_prefetch (xs : List Nat) (i : Nat) :
    fPositions (xs.map (fun x => PCall.prefetch x i)) = [] := by
  induction xs with
  | nil => rfl
  | cons x xs ih =>
    rw [List.map_cons]
    show fPositions ([PCall.prefetch x i] ++ _) = []
    rw [fPositions_append, ih]
    rfl

theorem prefetchTargets_prefetch (xs : List Nat) (i : Nat) :
    prefetchTargets (xs.map (fun x => PCall.prefetch x i)) = xs.map (fun _ => i) := by
  induction xs with
  | nil => rfl
  | cons x xs ih =>
    rw [List.map_cons]
    show prefetchTargets ([PCall.prefetch x i] ++ _) = _
    rw [prefetchTargets_append, ih]
    rfl

/-- The inner loop of the chunked kernel, when `f` never raises: it runs all
its `steps` iterations, on consecutive buffer positions. -/
theorem inner_never_raises {ε σ : Type} (f : Callback ε σ Int) (hf : NeverRaises f)
    (steps : Nat) : ∀ (j : Nat) (inner_it : Int) (w : World σ PCall),
    ∃ w', detail.loop_n_prefetching.inner f steps j inner_it w = (none, j + steps, w') ∧
      fPositions w'.trace =
        fPositions w.trace ++ (List.range steps).map (fun (i : Nat) => inner_it + (i : Int)) := by
  induction steps with
  | zero => intro j inner_it w; exact ⟨w, rfl, by simp⟩
  | succ steps ih =>
    intro j inner_it w
    obtain ⟨w', h1, h2⟩ := ih (j + 1) (inner_it + 1)
      (w.after (.f inner_it) (f inner_it w.tok w.user))
    refine ⟨w', ?_, ?_⟩
    · rw [detail.loop_n_prefetching.inner]
      simp only [hf inner_it w.tok w.user]
      rw [h1]
      congr 2
      omega
    · rw [h2]
      simp only [World.after, fPositions_append, List.range_succ_eq_map, List.map_cons,
        List.map_map, Function.comp_def, List.append_assoc]
      simp [fPositions, add_assoc, add_comm, add_left_comm]

/-- The inner loop of the chunked kernel issues no prefetch hint. -/
theorem inner_prefetchTargets {ε σ : Type} (f : Callback ε σ Int) (steps : Nat) :
    ∀ (j : Nat) (inner_it : Int) (w : World σ PCall),
    prefetchTargets (detail.loop_n_prefetching.inner f steps j inner_it w).2.2.trace =
      prefetchTargets w.trace := by
  induction steps with
  | zero => intro j inner_it w; rfl
  | succ steps ih =>
    intro j inner_it w
    rw [detail.loop_n_prefetching.inner]
    split
    · simp [World.after, prefetchTargets]
    · rw [ih]
      simp [World.after, prefetchTargets]

/-- The chunked kernel, when `f` never raises: it returns `it` after `count`
steps, having visited, chunk after chunk, the positions of each chunk. -/
theorem call_never_raises {ε σ : Type} (f : Callback ε σ Int) (hf : NeverRaises f)
    (count : Nat) : ∀ (it : detail.prefetching_iterator) (w : World σ PCall),
    ∃ w', detail.loop_n_prefetching.call f it count w =
        (.normal (detail.prefetching_iterator.advance count it), w') ∧
      fPositions w'.trace = fPositions w.trace ++
        ((List.range count).map
          (fun k => chunkPositions (detail.prefetching_iterator.advance k it))).flatten := by
  induction count with
  | zero => intro it w; exact ⟨w, rfl, by simp⟩
  | succ count ih =>
    intro it w
    obtain ⟨w1, h1, h2⟩ := inner_never_raises f hf
      (min it.range_size ((it.idx + it.chunk_size) % SIZE_MOD) - it.idx) it.idx it.base w
    obtain ⟨w', h3, h4⟩ := ih it.next
      (if it.idx + (min it.range_size ((it.idx + it.chunk_size) % SIZE_MOD) - it.idx) <
          (it.range_size + SIZE_MOD - 1) % SIZE_MOD then
        w1.record (it.M_.map (fun x => PCall.prefetch x
          (it.idx + (min it.range_size ((it.idx + it.chunk_size) % SIZE_MOD) - it.idx) + 1)))
      else w1)
    refine ⟨w', ?_, ?_⟩
    · rw [detail.loop_n_prefetching.call, h1]
      exact h3
    · rw [h4]
      have hw : fPositions (if it.idx +
          (min it.range_size ((it.idx + it.chunk_size) % SIZE_MOD) - it.idx) <
          (it.range_size + SIZE_MOD - 1) % SIZE_MOD then
        w1.record (it.M_.map (fun x => PCall.prefetch x
          (it.idx + (min it.range_size ((it.idx + it.chunk_size) % SIZE_MOD) - it.idx) + 1)))
      else w1).trace = fPositions w1.trace := by
        split
        · simp [World.record, fPositions_append, fPositions_prefetch]
        · rfl
      rw [hw, h2]
      simp [List.range_succ_eq_map, detail.prefetching_iterator.advance, chunkPositions,
        Function.comp_def]

/-- Stepping keeps the sizes and the buffers, moves `base` by whole chunks,
and moves `idx` by whole chunks as long as `std::size_t` does not wrap. -/
theorem advance_fields (k : Nat) : ∀ (it : detail.prefetching_iterator),
    (detail.prefetching_iterator.advance k it).chunk_size = it.chunk_size ∧
    (detail.prefetching_iterator.advance k it).range_size = it.range_size ∧
    (detail.prefetching_iterator.advance k it).M_ = it.M_ ∧
    (detail.prefetching_iterator.advance k it).base =
      it.base + ((k * it.chunk_size : Nat) : Int) ∧
    (it.idx + k * it.chunk_size < SIZE_MOD →
      (detail.prefetching_iterator.advance k it).idx = it.idx + k * it.chunk_size) := by
  induction k with
  | zero => intro it; simp [detail.prefetching_iterator.advance]
  | succ k ih =>
    intro it
    obtain ⟨h1, h2, h3, h4, h5⟩ := ih it.next
    have hc : it.next.chunk_size = it.chunk_size := rfl
    have hi : it.next.idx = (it.idx + it.chunk_size) % SIZE_MOD := rfl
    have hb : it.next.base = it.base + (it.chunk_size : Int) := rfl
    rw [hc] at h1 h4 h5
    refine ⟨h1, h2, h3, ?_, ?_⟩
    · show (detail.prefetching_iterator.advance k it.next).base = _
      rw [h4, hb, Nat.succ_mul]
      push_cast
      ring
    · intro hlt
      show (detail.prefetching_iterator.advance k it.next).idx = _
      rw [Nat.succ_mul] at hlt
      have hm : (it.idx + it.chunk_size) % SIZE_MOD = it.idx + it.chunk_size :=
        Nat.mod_eq_of_lt (by omega)
      rw [hi, hm] at h5
      rw [h5 (by omega), Nat.succ_mul]
      omega

/-- Without wrap-around, the positions of the chunk reached after `k` steps
are the buffer positions of the indices of the `k`-th chunk. -/
theorem chunkPositions_advance (it : detail.prefetching_iterator) (k : Nat)
    (h : it.idx + (k + 1) * it.chunk_size < SIZE_MOD) :
    chunkPositions (detail.prefetching_iterator.advance k it) =
      (chunkIndices it k).map (posOf it) := by
  obtain ⟨h1, h2, _, h4, h5⟩ := advance_fields k it
  rw [Nat.succ_mul] at h
  have h5' := h5 (by omega)
  have hm : (it.idx + k * it.chunk_size + it.chunk_size) % SIZE_MOD =
      it.idx + k * it.chunk_size + it.chunk_size := Nat.mod_eq_of_lt (by omega)
  simp only [chunkPositions, chunkIndices, h1, h2, h4, h5', hm, List.range'_eq_map_range,
    List.map_map, Function.comp_def, posOf]
  apply List.map_congr_left
  intro i _
  push_cast
  ring

/-- Consecutive chunks, cut at `range_size`, make up one interval. -/
theorem chunkIndices_flatten (it : detail.prefetching_iterator) (count : Nat) :
    ((List.range count).map (chunkIndices it)).flatten =
      List.range' it.idx
        (min it.range_size (it.idx + count * it.chunk_size) - it.idx) := by
  induction count with
  | zero => simp
  | succ count ih =>
    rw [List.range_succ, List.map_append, List.flatten_append, ih]
    simp only [List.map_cons, List.map_nil, List.flatten_cons, List.flatten_nil,
      List.append_nil, chunkIndices, Nat.succ_mul]
    by_cases hle : it.idx + count * it.chunk_size ≤ it.range_size
    · have e1 : min it.range_size (it.idx + count * it.chunk_size) - it.idx =
          count * it.chunk_size := by omega
      rw [e1, List.range'_append_1]
      congr 1
      omega
    · have e2 : min it.range_size (it.idx + count * it.chunk_size + it.chunk_size) -
          (it.idx + count * it.chunk_size) = 0 := by omega
      rw [e2]
      simp only [List.range'_zero, List.append_nil]
      congr 1
      omega

/-- The visits of the chunked kernel, without wrap-around and when `f` never
raises: the buffer positions of the indices of the chunks `0 .. count-1`. -/
theorem call_visits {ε σ : Type} (f : Callback ε σ Int) (hf : NeverRaises f)
    (it : detail.prefetching_iterator) (count : Nat) (w : World σ PCall)
    (hno : it.idx + count * it.chunk_size < SIZE_MOD) :
    ∃ w', detail.loop_n_prefetching.call f it count w =
        (.normal (detail.prefetching_iterator.advance count it), w') ∧
      fPositions w'.trace = fPositions w.trace ++
        (((List.range count).map (chunkIndices it)).flatten).map (posOf it) := by
  obtain ⟨w', h1, h2⟩ := call_never_raises f hf count it w
  refine ⟨w', h1, ?_⟩
  rw [h2]
  congr 1
  rw [List.map_flatten, List.map_map]
  congr 1
  apply List.map_congr_left
  intro k hk
  rw [List.mem_range] at hk
  apply chunkPositions_advance
  have : (k + 1) * it.chunk_size ≤ count * it.chunk_size :=
    Nat.mul_le_mul_right _ (by omega)
  omega

theorem SIZE_MOD_eq : SIZE_MOD = 18446744073709551616 := by decide

/-- With a range of at least one element, every prefetch hint the chunked
kernel issues targets an index of at most `range_size - 1`. -/
theorem prefetch_targets_in_bounds {ε σ : Type} (f : Callback ε σ Int) (count : Nat) :
    ∀ (it : detail.prefetching_iterator) (w : World σ PCall),
    1 ≤ it.range_size → it.range_size < SIZE_MOD →
    ∀ t, t ∈ prefetchTargets (detail.loop_n_prefetching.call f it count w).2.trace →
      t ∈ prefetchTargets w.trace ∨ t ≤ it.range_size - 1 := by
  induction count with
  | zero => intro it w _ _ t ht; exact Or.inl ht
  | succ count ih =>
    intro it w h1 h2 t ht
    have hp := inner_prefetchTargets f
      (min it.range_size ((it.idx + it.chunk_size) % SIZE_MOD) - it.idx) it.idx it.base w
    rw [detail.loop_n_prefetching.call] at ht
    rcases hin : detail.loop_n_prefetching.inner f
      (min it.range_size ((it.idx + it.chunk_size) % SIZE_MOD) - it.idx) it.idx it.base w
      with ⟨oe, j, w1⟩
    rw [hin] at ht hp
    cases oe with
    | some e =>
      left
      rw [← hp]
      exact ht
    | none =>
      have hg : (it.range_size + SIZE_MOD - 1) % SIZE_MOD = it.range_size - 1 := by
        rw [SIZE_MOD_eq] at h2 ⊢
        omega
      rcases ih it.next _ h1 h2 t ht with h | h
      · by_cases hj : j < (it.range_size + SIZE_MOD - 1) % SIZE_MOD
        · simp only [hj, if_true, World.record, prefetchTargets_append,
            prefetchTargets_prefetch, List.mem_append, List.mem_map] at h
          rcases h with h | ⟨_, _, rfl⟩
          · left
            rw [← hp]
            exact h
          · right
            rw [hg] at hj
            omega
        · simp only [hj, if_false] at h
          left
          rw [← hp]
          exact h
      · right
        exact h

/-- With a token cancelled on entry, the token overload of the chunked kernel
invokes nothing and still steps `it` through all `count` chunks. -/
theorem call_tok_cancelled_on_entry {ε σ : Type} (f : Callback ε σ Int) (count : Nat) :
    ∀ (it : detail.prefetching_iterator) (w : World σ PCall),
    w.tok.was_cancelled = true →
    detail.loop_n_prefetching.call_tok f it count w =
      (.normal (detail.prefetching_iterator.advance count it), w) := by
  induction count with
  | zero => intro it w _; rfl
  | succ count ih =>
    intro it w hc
    have hin : ∀ steps, detail.loop_n_prefetching.inner_tok f steps it.idx it.base w =
        (none, it.idx, w) := by
      intro steps
      cases steps with
      | zero => rfl
      | succ steps => simp [detail.loop_n_prefetching.inner_tok, hc]
    rw [detail.loop_n_prefetching.call_tok, hin]
    exact ih it.next w hc

/-! ## The claims on the chunked prefetch iterator -/

/-- C14. `make_prefetcher_context` with distance factor `P` and elements of
`elem_size` bytes over `[begin, end)`: `chunk_size` is `floor(64 / elem_size)`
when `P = 0` and `floor(P * 64 / elem_size)` otherwise, and `range_size` is
`end - begin` (for values within `std::size_t`: `P * 64` does not wrap and
`begin ≤ end`). -/
theorem make_prefetcher_context_chunk_and_range_size (elem_size begin_ end_ P : Nat)
    (l : List Nat) (hP : P * 64 < SIZE_MOD) (hbe : begin_ ≤ end_)
    (hend : end_ < SIZE_MOD) :
    (detail.make_prefetcher_context elem_size begin_ end_ l P).chunk_size =
      (if P = 0 then 64 / elem_size else P * 64 / elem_size) ∧
    (detail.make_prefetcher_context elem_size begin_ end_ l P).range_size =
      end_ - begin_ := by
  have hr : (end_ + SIZE_MOD - begin_) % SIZE_MOD = end_ - begin_ := by
    rw [SIZE_MOD_eq] at hend ⊢
    omega
  by_cases h0 : P = 0
  · simp [detail.make_prefetcher_context, h0, detail.prefetcher_context.ctor_default, hr]
  · simp [detail.make_prefetcher_context, h0, detail.prefetcher_context.ctor_p_factor, hr,
      Nat.mod_eq_of_lt hP]

/-- C14, at the inputs of the specification: `P = 20`, 8-byte elements,
`[0, 10007)`; and `P = 0` with 8-byte elements gives chunks of 8. -/
theorem make_prefetcher_context_chunk_and_range_size_witness :
    ((detail.make_prefetcher_context 8 0 10007 [0] 20).chunk_size = 160 ∧
      (detail.make_prefetcher_context 8 0 10007 [0] 20).range_size = 10007) ∧
    ((detail.make_prefetcher_context 8 0 10007 [0] 0).chunk_size = 8 ∧
      (detail.make_prefetcher_context 8 0 10007 [0] 0).range_size = 10007) :=
  ⟨make_prefetcher_context_chunk_and_range_size 8 0 10007 20 [0] (by decide) (by decide)
      (by decide),
   make_prefetcher_context_chunk_and_range_size 8 0 10007 0 [0] (by decide) (by decide)
      (by decide)⟩

/-- C15, on the code: over `[5, 8)` with distance factor 1 the context holds
the index sequence `[0, 1, 2]`, not `[5, 6, 7]`: the constructor taking a
distance factor stores `range[i] = i`.  With distance factor 0 the other
constructor stores `range[i] = i + begin`, here `[5, 6, 7]`. -/
theorem p_factor_context_index_sequence_ignores_begin :
    (detail.make_prefetcher_context 8 5 8 [0] 1).range = [0, 1, 2] ∧
    (detail.make_prefetcher_context 8 5 8 [0] 1).range ≠ [5, 6, 7] ∧
    (detail.make_prefetcher_context 8 5 8 [0] 0).range = [5, 6, 7] := by
  decide

/-- C16, on the code: for the context of the test (`N = 10007`,
`chunk_size = 160`) the count `ctx.end() - ctx.begin()` is `floor(10007 / 160)
= 62`, and the chunked `loop_n` over it invokes `f` on the indices
`0 .. 9919` only: the 87 indices of the partial last chunk, from 9920 on, are
never visited. -/
theorem chunked_loop_n_drops_partial_last_chunk :
    toSizeT ((detail.prefetcher_context.end ctx_1).diff ctx_1.begin) = 62 ∧
    fPositions (loop_n_prefetching ctx_1.begin
        (toSizeT ((detail.prefetcher_context.end ctx_1).diff ctx_1.begin)) noopAt
        World.start).2.trace = (List.range' 0 9920).map (fun (j : Nat) => (j : Int)) ∧
    ∀ j : Nat, 9920 ≤ j → (j : Int) ∉ fPositions (loop_n_prefetching ctx_1.begin
        (toSizeT ((detail.prefetcher_context.end ctx_1).diff ctx_1.begin)) noopAt
        World.start).2.trace := by
  have hcount : toSizeT ((detail.prefetcher_context.end ctx_1).diff ctx_1.begin) = 62 := by
    decide
  obtain ⟨w', h1, h2⟩ := call_visits noopAt (fun _ _ _ => rfl) ctx_1.begin 62
    (World.start : World Unit PCall) (by decide)
  have hpos : fPositions (loop_n_prefetching ctx_1.begin 62 noopAt World.start).2.trace =
      (List.range' 0 9920).map (fun (j : Nat) => (j : Int)) := by
    rw [loop_n_prefetching, h1, h2, chunkIndices_flatten]
    have e1 : ctx_1.begin.idx = 0 := rfl
    have e2 : min ctx_1.begin.range_size (ctx_1.begin.idx + 62 * ctx_1.begin.chunk_size) -
        ctx_1.begin.idx = 9920 := by decide
    rw [e1] at e2 ⊢
    rw [e2]
    have e3 : fPositions (World.start : World Unit PCall).trace = [] := rfl
    rw [e3, List.nil_append]
    apply List.map_congr_left
    intro j _
    show ctx_1.begin.base + ((j : Int) - (ctx_1.begin.idx : Int)) = (j : Int)
    have e4 : ctx_1.begin.base = 0 := rfl
    rw [e4, e1]
    simp
  rw [hcount]
  refine ⟨rfl, hpos, ?_⟩
  intro j hj hmem
  rw [hpos, List.mem_map] at hmem
  obtain ⟨i, hi, hij⟩ := hmem
  rw [List.mem_range'_1] at hi
  have : i = j := by exact_mod_cast hij
  omega

/-- C17, on the code: for the context of the test (`N = 10007`,
`chunk_size = 160`) the chunked `loop_n(ctx.begin(), ctx.end() - ctx.begin(), f)`
returns an iterator at logical index `62 * 160 = 9920`, while `ctx.end()` is at
10007: the two do not compare equal. -/
theorem chunked_loop_n_result_differs_from_end :
    ∃ r w', loop_n_prefetching ctx_1.begin
        (toSizeT ((detail.prefetcher_context.end ctx_1).diff ctx_1.begin)) noopAt
        World.start = (.normal r, w') ∧
      r.idx = 9920 ∧ (detail.prefetcher_context.end ctx_1).idx = 10007 ∧
      r.eq (detail.prefetcher_context.end ctx_1) = false := by
  have hcount : toSizeT ((detail.prefetcher_context.end ctx_1).diff ctx_1.begin) = 62 := by
    decide
  obtain ⟨w', h1, _⟩ := call_visits noopAt (fun _ _ _ => rfl) ctx_1.begin 62
    (World.start : World Unit PCall) (by decide)
  have hidx : (detail.prefetching_iterator.advance 62 ctx_1.begin).idx = 9920 := by
    rw [(advance_fields 62 ctx_1.begin).2.2.2.2 (by decide)]
    decide
  have hend : (detail.prefetcher_context.end ctx_1).idx = 10007 := by decide
  refine ⟨detail.prefetching_iterator.advance 62 ctx_1.begin, w', ?_, hidx, hend, ?_⟩
  · rw [hcount]
    exact h1
  · simp [detail.prefetching_iterator.eq, hidx, hend]

/-- C18, on the code: for a context over the empty range (`range_size = 0`),
one step of the chunked `loop_n` from `begin()` issues a prefetch hint for
index 1: the guard `j < it.range_size - 1` is computed in `std::size_t`, where
`0 - 1` wraps to the largest value. -/
theorem chunked_loop_n_prefetches_past_empty_range :
    ctx_empty.range_size = 0 ∧
    prefetchTargets (loop_n_prefetching ctx_empty.begin 1 noopAt World.start).2.trace =
      [1] := by
  decide

/-- C19, on the code: with a token cancelled on entry, the token overload of
the chunked `loop_n` over two chunks of 8 invokes `f` on no element, and yet
returns the iterator at logical index 16, not the input iterator at index 0:
`break` leaves the inner loop only, and the outer loop steps on. -/
theorem chunked_loop_n_tok_steps_on_when_cancelled :
    ∃ r w', loop_n_prefetching_tok ctx_small.begin 2 noopAt World.cancelled =
        (.normal r, w') ∧
      w'.trace = [] ∧ ctx_small.begin.idx = 0 ∧ r.idx = 16 ∧
      r.eq ctx_small.begin = false :=
  ⟨_, _, rfl, rfl, rfl, by decide, by decide⟩

/-- C20. Chunked `loop_n(it, count, f)` of loop.hpp, with a callback that never
raises and `it.idx + count * chunk_size` within `std::size_t`: the kernel
returns `it` after `count` steps, and `f` has been invoked, chunk after chunk for the `count` chunks
starting at `s = it.idx + k * chunk_size`, on (the buffer position of) every
index of `[s, min(range_size, s + chunk_size))` in increasing order; overall
these are the indices of `[it.idx, min(range_size, it.idx + count * chunk_size))`,
each once, in increasing order. -/
theorem chunked_loop_n_visits_chunk_by_chunk {ε σ : Type} (f : Callback ε σ Int)
    (it : detail.prefetching_iterator) (count : Nat) (w : World σ PCall)
    (hf : NeverRaises f) (hno : it.idx + count * it.chunk_size < SIZE_MOD) :
    (loop_n_prefetching it count f w).1 =
      .normal (detail.prefetching_iterator.advance count it) ∧
    fPositions (loop_n_prefetching it count f w).2.trace = fPositions w.trace ++
      (((List.range count).map (chunkIndices it)).flatten).map (posOf it) ∧
    ((List.range count).map (chunkIndices it)).flatten =
      List.range' it.idx
        (min it.range_size (it.idx + count * it.chunk_size) - it.idx) := by
  obtain ⟨w', h1, h2⟩ := call_visits f hf it count w hno
  refine ⟨?_, ?_, chunkIndices_flatten it count⟩
  · rw [loop_n_prefetching, h1]
  · rw [loop_n_prefetching, h1]
    exact h2

/-- C20, at a concrete input: the context over `[0, 7)` with chunks of 2, three
chunks from `begin()`, then two chunks from the iterator at index 4, where the
second chunk is cut at `range_size`. -/
theorem chunked_loop_n_visits_chunk_by_chunk_witness :
    ((loop_n_prefetching ctx_7.begin 3 noopAt World.start).1 =
        .normal (detail.prefetching_iterator.advance 3 ctx_7.begin) ∧
      fPositions (loop_n_prefetching ctx_7.begin 3 noopAt World.start).2.trace =
        [0, 1, 2, 3, 4, 5] ∧
      ((List.range 3).map (chunkIndices ctx_7.begin)).flatten = [0, 1, 2, 3, 4, 5]) ∧
    ((loop_n_prefetching ctx_7.begin.next.next 2 noopAt World.start).1 =
        .normal (detail.prefetching_iterator.advance 2 ctx_7.begin.next.next) ∧
      fPositions (loop_n_prefetching ctx_7.begin.next.next 2 noopAt World.start).2.trace =
        [4, 5, 6] ∧
      ((List.range 2).map (chunkIndices ctx_7.begin.next.next)).flatten = [4, 5, 6]) :=
  ⟨chunked_loop_n_visits_chunk_by_chunk noopAt ctx_7.begin 3 World.start
      (fun _ _ _ => rfl) (by decide),
   chunked_loop_n_visits_chunk_by_chunk noopAt ctx_7.begin.next.next 2 World.start
      (fun _ _ _ => rfl) (by decide)⟩

/-! ## Lemmas on prefetch hints and stepping -/

/-- The inner loop of the token overload issues no prefetch hint. -/
theorem inner_tok_prefetchTargets {ε σ : Type} (f : Callback ε σ Int) (steps : Nat) :
    ∀ (j : Nat) (inner_it : Int) (w : World σ PCall),
    prefetchTargets (detail.loop_n_prefetching.inner_tok f steps j inner_it w).2.2.trace =
      prefetchTargets w.trace := by
  induction steps with
  | zero => intro j inner_it w; rfl
  | succ steps ih =>
    intro j inner_it w
    rw [detail.loop_n_prefetching.inner_tok]
    split
    · rfl
    · split
      · simp [World.after, prefetchTargets]
      · rw [ih]
        simp [World.after, prefetchTargets]

/-- The token overload of the chunked kernel of loop.hpp issues no prefetch
hint at all. -/
theorem call_tok_prefetchTargets {ε σ : Type} (f : Callback ε σ Int) (count : Nat) :
    ∀ (it : detail.prefetching_iterator) (w : World σ PCall),
    prefetchTargets (detail.loop_n_prefetching.call_tok f it count w).2.trace =
      prefetchTargets w.trace := by
  induction count with
  | zero => intro it w; rfl
  | succ count ih =>
    intro it w
    have hp := inner_tok_prefetchTargets f
      (min it.range_size ((it.idx + it.chunk_size) % SIZE_MOD) - it.idx) it.idx it.base w
    rw [detail.loop_n_prefetching.call_tok]
    rcases hin : detail.loop_n_prefetching.inner_tok f
      (min it.range_size ((it.idx + it.chunk_size) % SIZE_MOD) - it.idx) it.idx it.base w
      with ⟨oe, j, w1⟩
    rw [hin] at hp
    cases oe with
    | some e => exact hp
    | none =>
      show prefetchTargets (detail.loop_n_prefetching.call_tok f it.next count w1).2.trace = _
      rw [ih]
      exact hp

/-! ## The claims on prefetch hints, stepping and comparison -/

/-- C21, on the code: over `[0, 7)` with chunks of 2, after the chunk `[0, 2)`
is consumed the one hint (one backing buffer) targets index 3, not index 2,
the first element of the next chunk: the target is `j + 1` with `j` already at
the start of the next chunk.  Over `[0, 3)` the next chunk `[2, 3)` exists and
no hint is issued: the guard `j < range_size - 1` asks for two more elements. -/
theorem chunked_loop_n_prefetch_target_is_one_past :
    ctx_7.begin.idx + ctx_7.begin.chunk_size = 2 ∧
    (loop_n_prefetching ctx_7.begin 1 noopAt World.start).2.trace =
      [.f 0, .f 1, .prefetch 0 3] ∧
    ctx_3.begin.idx + ctx_3.begin.chunk_size = 2 ∧ ctx_3.begin.range_size = 3 ∧
    (loop_n_prefetching ctx_3.begin 1 noopAt World.start).2.trace = [.f 0, .f 1] := by
  decide

/-- C22, on the code: over `[0, 7)` with chunks of 2 and a token that is never
cancelled, two chunks from `begin()`: both overloads invoke `f` on the indices
`0 .. 3`, the token-free overload issues hints for the indices 3 and 5, the
token overload issues none. -/
theorem chunked_loop_n_tok_issues_no_prefetch :
    fPositions (loop_n_prefetching ctx_7.begin 2 noopAt World.start).2.trace =
      [0, 1, 2, 3] ∧
    fPositions (loop_n_prefetching_tok ctx_7.begin 2 noopAt World.start).2.trace =
      [0, 1, 2, 3] ∧
    prefetchTargets (loop_n_prefetching ctx_7.begin 2 noopAt World.start).2.trace =
      [3, 5] ∧
    prefetchTargets (loop_n_prefetching_tok ctx_7.begin 2 noopAt World.start).2.trace =
      [] := by
  decide

/-- C23, as stated, fails: for an element type of 128 bytes the context has
`chunk_size = 0`, with distance factor 0 (`64 / 128`) and with distance factor
1 (`1 * 64 / 128`), in loop.hpp and in pref.hpp alike. -/
theorem make_prefetcher_context_chunk_size_can_be_zero :
    (detail.make_prefetcher_context 128 0 10 [0] 0).chunk_size = 0 ∧
    (detail.make_prefetcher_context 128 0 10 [0] 1).chunk_size = 0 ∧
    (pref.make_prefetcher_context 128 0 10 [0] 0).chunk_size = 0 ∧
    (pref.make_prefetcher_context 128 0 10 [0] 1).chunk_size = 0 := by
  decide

/-- C23, amended. A context built by `make_prefetcher_context` (of loop.hpp or
of pref.hpp) for elements of `elem_size ≥ 1` bytes and a distance factor `P`
(with `P * 64` within `std::size_t`) has `chunk_size > 0` exactly when
`elem_size` is at most 64 for `P = 0`, and at most `P * 64` otherwise. -/
theorem make_prefetcher_context_chunk_size_pos_iff (elem_size begin_ end_ P : Nat)
    (ibegin iend : Int) (l : List Nat) (hsize : 1 ≤ elem_size)
    (hP : P * 64 < SIZE_MOD) :
    (0 < (detail.make_prefetcher_context elem_size begin_ end_ l P).chunk_size ↔
      elem_size ≤ (if P = 0 then 64 else P * 64)) ∧
    (0 < (pref.make_prefetcher_context elem_size ibegin iend l P).chunk_size ↔
      elem_size ≤ (if P = 0 then 64 else P * 64)) := by
  have hne : elem_size ≠ 0 := by omega
  by_cases h0 : P = 0
  · simp [detail.make_prefetcher_context, pref.make_prefetcher_context, h0,
      detail.prefetcher_context.ctor_default, pref.prefetcher_context.ctor_default,
      Nat.div_pos_iff hne]
  · simp [detail.make_prefetcher_context, pref.make_prefetcher_context, h0,
      detail.prefetcher_context.ctor_p_factor, pref.prefetcher_context.ctor_p_factor,
      Nat.mod_eq_of_lt hP, Nat.div_pos_iff hne]

/-- C23, amended, at a concrete input: 8-byte elements with distance factor
20, and 64-byte elements with distance factor 0. -/
theorem make_prefetcher_context_chunk_size_pos_iff_witness :
    ((0 < (detail.make_prefetcher_context 8 0 10007 [0] 20).chunk_size ↔
        8 ≤ (if 20 = 0 then 64 else 20 * 64)) ∧
      (0 < (pref.make_prefetcher_context 8 0 10007 [0] 20).chunk_size ↔
        8 ≤ (if 20 = 0 then 64 else 20 * 64))) ∧
    ((0 < (detail.make_prefetcher_context 64 0 10007 [0] 0).chunk_size ↔
        64 ≤ (if 0 = 0 then 64 else 0 * 64)) ∧
      (0 < (pref.make_prefetcher_context 64 0 10007 [0] 0).chunk_size ↔
        64 ≤ (if 0 = 0 then 64 else 0 * 64))) :=
  ⟨make_prefetcher_context_chunk_size_pos_iff 8 0 10007 20 0 10007 [0] (by decide)
      (by decide),
   make_prefetcher_context_chunk_size_pos_iff 64 0 10007 0 0 10007 [0] (by decide)
      (by decide)⟩

theorem toSizeT_natCast (n : Nat) (h : n < SIZE_MOD) : toSizeT (n : Int) = n := by
  rw [SIZE_MOD_eq] at h
  simp only [toSizeT, SIZE_MOD_eq]
  omega

theorem toSizeT_toSigned (q : Nat) (h : q < SIZE_MOD) : toSizeT (toSigned q) = q := by
  rw [SIZE_MOD_eq] at h
  simp only [toSizeT, toSigned, SIZE_MOD_eq, SIZE_BITS]
  split <;> omega

/-- Stepping `k` times moves the logical index by `k` chunks in `std::size_t`. -/
theorem advance_idx_mod (k : Nat) : ∀ (it : detail.prefetching_iterator),
    it.idx < SIZE_MOD →
    (detail.prefetching_iterator.advance k it).idx =
      (it.idx + k * it.chunk_size) % SIZE_MOD := by
  induction k with
  | zero =>
    intro it h
    simp [detail.prefetching_iterator.advance, Nat.mod_eq_of_lt h]
  | succ k ih =>
    intro it _
    show (detail.prefetching_iterator.advance k it.next).idx = _
    rw [ih it.next (Nat.mod_lt _ (by decide))]
    show ((it.idx + it.chunk_size) % SIZE_MOD + k * it.chunk_size) % SIZE_MOD = _
    rw [Nat.mod_add_mod, Nat.succ_mul]
    congr 1
    omega

/-- A `std::size_t` value below `2^63` converts to the same `difference_type`
value. -/
theorem toSigned_of_lt (x : Nat) (h : x < 2 ^ (SIZE_BITS - 1)) : toSigned x = (x : Int) := by
  simp only [toSigned, h, if_true]

/-- The logical index of `it + n` is that of `it` after `n` applications of
`operator++`. -/
theorem add_idx_eq_advance_idx (it : detail.prefetching_iterator) (n : Nat)
    (hidx : it.idx < SIZE_MOD) (hn : n < SIZE_MOD) :
    (it.add (n : Int)).idx = (detail.prefetching_iterator.advance n it).idx := by
  rw [advance_idx_mod n it hidx]
  simp only [detail.prefetching_iterator.add, toSizeT_natCast n hn, Nat.add_mod_mod]

/-- The iterator `it + n` is `it` after `n` applications of `operator++`, when
the product `n * chunk_size` is a `difference_type` value (below `2^63`), so
that the offset added to `base` is the product itself. -/
theorem add_eq_advance (it : detail.prefetching_iterator) (n : Nat)
    (hidx : it.idx < SIZE_MOD) (hn : n < SIZE_MOD)
    (hprod : n * it.chunk_size < 2 ^ (SIZE_BITS - 1)) :
    it.add (n : Int) = detail.prefetching_iterator.advance n it := by
  obtain ⟨h1, h2, h3, h4, _⟩ := advance_fields n it
  have h5 := advance_idx_mod n it hidx
  have hplt : n * it.chunk_size < SIZE_MOD := by
    simp only [SIZE_BITS] at hprod
    rw [SIZE_MOD_eq]
    omega
  have e : it.add (n : Int) =
      { M_ := it.M_, base := it.base + ((n * it.chunk_size : Nat) : Int),
        chunk_size := it.chunk_size, range_size := it.range_size,
        idx := (it.idx + n * it.chunk_size) % SIZE_MOD } := by
    simp only [detail.prefetching_iterator.add, toSizeT_natCast n hn, Nat.add_mod_mod,
      Nat.mod_eq_of_lt hplt, toSigned_of_lt _ hprod]
  rw [e]
  cases hadv : detail.prefetching_iterator.advance n it with
  | mk M b c r i =>
    rw [hadv] at h1 h2 h3 h4 h5
    simp only at h1 h2 h3 h4 h5
    rw [h1, h2, h3, h4, h5]


/-- In a context built by `make_prefetcher_context`, `end()` is at logical
index `range_size`, a `std::size_t` value. -/
theorem made_context_end_idx (elem_size begin_ end_ P : Nat) (l : List Nat) :
    (detail.prefetcher_context.end
      (detail.make_prefetcher_context elem_size begin_ end_ l P)).idx =
      (detail.make_prefetcher_context elem_size begin_ end_ l P).range_size ∧
    (detail.make_prefetcher_context elem_size begin_ end_ l P).range_size < SIZE_MOD := by
  have hlt : (end_ + SIZE_MOD - begin_) % SIZE_MOD < SIZE_MOD := Nat.mod_lt _ (by decide)
  by_cases h0 : P = 0
  · simp only [detail.make_prefetcher_context, h0, if_true,
      detail.prefetcher_context.ctor_default, detail.prefetcher_context.end]
    refine ⟨?_, hlt⟩
    rw [show ((0 : Int) + (((end_ + SIZE_MOD - begin_) % SIZE_MOD : Nat) : Int) - 1 + 1 - 0) =
      (((end_ + SIZE_MOD - begin_) % SIZE_MOD : Nat) : Int) by ring]
    exact toSizeT_natCast _ hlt
  · simp only [detail.make_prefetcher_context, h0, if_false,
      detail.prefetcher_context.ctor_p_factor, detail.prefetcher_context.end]
    refine ⟨?_, hlt⟩
    rw [show ((((end_ + SIZE_MOD - begin_) % SIZE_MOD : Nat) : Int) - 1 + 1 - 0) =
      (((end_ + SIZE_MOD - begin_) % SIZE_MOD : Nat) : Int) by ring]
    exact toSizeT_natCast _ hlt

/-- For a context whose `end()` is at index `range_size`: the steps `k` from
`begin()` up to `end() - begin()` stay at or below `range_size`, and so does
the whole-context count. -/
theorem context_steps_within_range (ctx : detail.prefetcher_context)
    (hend : (detail.prefetcher_context.end ctx).idx = ctx.range_size)
    (hr : ctx.range_size < SIZE_MOD) :
    (∀ k : Int, 0 ≤ k → k ≤ (detail.prefetcher_context.end ctx).diff ctx.begin →
      (ctx.begin.add k).idx ≤ ctx.range_size) ∧
    toSizeT ((detail.prefetcher_context.end ctx).diff ctx.begin) * ctx.chunk_size ≤
      ctx.range_size := by
  have hdiff : (detail.prefetcher_context.end ctx).diff ctx.begin =
      toSigned (ctx.range_size / ctx.chunk_size) := by
    simp only [detail.prefetching_iterator.diff, hend]
    show toSigned ((ctx.range_size + SIZE_MOD - 0) % SIZE_MOD / ctx.chunk_size) = _
    rw [Nat.sub_zero, Nat.add_mod_right, Nat.mod_eq_of_lt hr]
  have hq : ctx.range_size / ctx.chunk_size * ctx.chunk_size ≤ ctx.range_size :=
    Nat.div_mul_le_self _ _
  have hqlt : ctx.range_size / ctx.chunk_size < SIZE_MOD :=
    Nat.lt_of_le_of_lt (Nat.div_le_self _ _) hr
  rw [hdiff]
  refine ⟨?_, ?_⟩
  · intro k hk0 hk
    obtain ⟨n, rfl⟩ := Int.eq_ofNat_of_zero_le hk0
    have hn : n ≤ ctx.range_size / ctx.chunk_size := by
      have hk' := hk
      simp only [toSigned, SIZE_MOD_eq, SIZE_BITS] at hk'
      rw [SIZE_MOD_eq] at hqlt
      split at hk' <;> omega
    have hnc : n * ctx.chunk_size ≤ ctx.range_size :=
      Nat.le_trans (Nat.mul_le_mul_right _ hn) hq
    have hnlt : n < SIZE_MOD := by omega
    show (0 + (toSizeT (n : Int) * ctx.chunk_size) % SIZE_MOD) % SIZE_MOD ≤ ctx.range_size
    rw [toSizeT_natCast n hnlt, Nat.zero_add, Nat.mod_mod, Nat.mod_eq_of_lt (by omega)]
    exact hnc
  · rw [toSizeT_toSigned _ hqlt]
    exact hq


/-- C24. Stepping a well-formed prefetching iterator moves the logical index
by whole chunks, in `std::size_t`: `++it`, `it + 1` and `it += 1` all yield
`idx + chunk_size`; `it + n` yields `idx + n * chunk_size`, which is the logical
index reached by `n` applications of `++`, so the two compare equal; when the
product `n * chunk_size` is below `2^63` the two iterators agree in every data
member; `--(++it)` compares equal to `it`.  When `idx + n * chunk_size` does
not wrap, these are the plain sums. -/
theorem stepping_moves_index_by_whole_chunks (it : detail.prefetching_iterator) (n : Nat)
    (hwf : it.WellFormed) (hn : n < 2 ^ (SIZE_BITS - 1)) :
    it.next.idx = (it.idx + it.chunk_size) % SIZE_MOD ∧
    (it.add 1).idx = (it.idx + it.chunk_size) % SIZE_MOD ∧
    (it.add_assign 1).idx = (it.idx + it.chunk_size) % SIZE_MOD ∧
    (it.add (n : Int)).idx = (it.idx + n * it.chunk_size) % SIZE_MOD ∧
    (it.add (n : Int)).idx = (detail.prefetching_iterator.advance n it).idx ∧
    (it.add (n : Int)).eq (detail.prefetching_iterator.advance n it) = true ∧
    (n * it.chunk_size < 2 ^ (SIZE_BITS - 1) →
      it.add (n : Int) = detail.prefetching_iterator.advance n it) ∧
    it.next.prev.eq it = true ∧
    (it.idx + it.chunk_size < SIZE_MOD → it.next.idx = it.idx + it.chunk_size) ∧
    (it.idx + n * it.chunk_size < SIZE_MOD →
      (it.add (n : Int)).idx = it.idx + n * it.chunk_size) := by
  obtain ⟨hidx, hchunk⟩ := hwf
  have hnlt : n < SIZE_MOD := by
    simp only [SIZE_BITS] at hn
    rw [SIZE_MOD_eq]
    omega
  have h1 : toSizeT (1 : Int) = 1 := by decide
  have hadd : (it.add (n : Int)).idx = (it.idx + n * it.chunk_size) % SIZE_MOD := by
    simp only [detail.prefetching_iterator.add, toSizeT_natCast n hnlt, Nat.add_mod_mod]
  have hadv := add_idx_eq_advance_idx it n hidx hnlt
  refine ⟨rfl, ?_, ?_, hadd, hadv, ?_, add_eq_advance it n hidx hnlt, ?_, ?_, ?_⟩
  · simp only [detail.prefetching_iterator.add, h1, Nat.one_mul, Nat.add_mod_mod]
  · simp only [detail.prefetching_iterator.add_assign, h1, Nat.one_mul, Nat.add_mod_mod]
  · simp only [detail.prefetching_iterator.eq, beq_iff_eq]
    exact hadv
  · simp only [detail.prefetching_iterator.eq, detail.prefetching_iterator.prev,
      detail.prefetching_iterator.next, beq_iff_eq]
    rw [SIZE_MOD_eq] at hidx hchunk ⊢
    omega
  · intro h
    exact Nat.mod_eq_of_lt h
  · intro h
    rw [hadd]
    exact Nat.mod_eq_of_lt h

/-- C24, at a concrete input: the iterator at index 4 with chunks of 2, and
three steps. -/
theorem stepping_moves_index_by_whole_chunks_witness :
    (itAt 2 7 4).next.idx = (4 + 2) % SIZE_MOD ∧
    ((itAt 2 7 4).add 1).idx = (4 + 2) % SIZE_MOD ∧
    ((itAt 2 7 4).add_assign 1).idx = (4 + 2) % SIZE_MOD ∧
    ((itAt 2 7 4).add ((3 : Nat) : Int)).idx = (4 + 3 * 2) % SIZE_MOD ∧
    ((itAt 2 7 4).add ((3 : Nat) : Int)).idx =
      (detail.prefetching_iterator.advance 3 (itAt 2 7 4)).idx ∧
    ((itAt 2 7 4).add ((3 : Nat) : Int)).eq
      (detail.prefetching_iterator.advance 3 (itAt 2 7 4)) = true ∧
    (3 * 2 < 2 ^ (SIZE_BITS - 1) →
      (itAt 2 7 4).add ((3 : Nat) : Int) =
        detail.prefetching_iterator.advance 3 (itAt 2 7 4)) ∧
    (itAt 2 7 4).next.prev.eq (itAt 2 7 4) = true ∧
    (4 + 2 < SIZE_MOD → (itAt 2 7 4).next.idx = 4 + 2) ∧
    (4 + 3 * 2 < SIZE_MOD → ((itAt 2 7 4).add ((3 : Nat) : Int)).idx = 4 + 3 * 2) :=
  stepping_moves_index_by_whole_chunks (itAt 2 7 4) 3 ⟨by decide, by decide⟩ (by decide)

/-- C25. For every context built by `make_prefetcher_context` with
`chunk_size > 0` and every `k` with `0 ≤ k ≤ ctx.end() - ctx.begin()`, the
iterator `ctx.begin() + k` has its logical index in `[0, range_size]`; and the
chunked `loop_n(ctx.begin(), ctx.end() - ctx.begin(), f)` of loop.hpp, for a
callback that never raises, returns an iterator whose logical index is in
`[0, range_size]`. -/
theorem context_iterators_stay_within_range {ε σ : Type} (elem_size begin_ end_ P : Nat)
    (l : List Nat) (f : Callback ε σ Int) (w : World σ PCall) (hf : NeverRaises f)
    (hc : 0 < (detail.make_prefetcher_context elem_size begin_ end_ l P).chunk_size) :
    (∀ k : Int, 0 ≤ k →
      k ≤ (detail.prefetcher_context.end
            (detail.make_prefetcher_context elem_size begin_ end_ l P)).diff
          (detail.make_prefetcher_context elem_size begin_ end_ l P).begin →
      ((detail.make_prefetcher_context elem_size begin_ end_ l P).begin.add k).idx ≤
        (detail.make_prefetcher_context elem_size begin_ end_ l P).range_size) ∧
    (∃ r, (loop_n_prefetching
          (detail.make_prefetcher_context elem_size begin_ end_ l P).begin
          (toSizeT ((detail.prefetcher_context.end
              (detail.make_prefetcher_context elem_size begin_ end_ l P)).diff
            (detail.make_prefetcher_context elem_size begin_ end_ l P).begin)) f w).1 =
        .normal r ∧
      r.idx ≤ (detail.make_prefetcher_context elem_size begin_ end_ l P).range_size) := by
  have _ := hc
  obtain ⟨hend, hr⟩ := made_context_end_idx elem_size begin_ end_ P l
  generalize detail.make_prefetcher_context elem_size begin_ end_ l P = ctx at *
  obtain ⟨hsteps, hcount⟩ := context_steps_within_range ctx hend hr
  refine ⟨hsteps, ?_⟩
  generalize toSizeT ((detail.prefetcher_context.end ctx).diff ctx.begin) = count at *
  have hno : ctx.begin.idx + count * ctx.begin.chunk_size < SIZE_MOD := by
    show 0 + count * ctx.chunk_size < SIZE_MOD
    omega
  obtain ⟨w', h1, _⟩ := call_visits f hf ctx.begin count w hno
  refine ⟨detail.prefetching_iterator.advance count ctx.begin, ?_, ?_⟩
  · rw [loop_n_prefetching, h1]
  · rw [(advance_fields count ctx.begin).2.2.2.2 hno]
    show 0 + count * ctx.chunk_size ≤ ctx.range_size
    omega

/-- C25, at a concrete input: the context of the test (`N = 10007`, chunks of
160). -/
theorem context_iterators_stay_within_range_witness :
    (∀ k : Int, 0 ≤ k →
      k ≤ (detail.prefetcher_context.end
            (detail.make_prefetcher_context 8 0 10007 [0] 20)).diff
          (detail.make_prefetcher_context 8 0 10007 [0] 20).begin →
      ((detail.make_prefetcher_context 8 0 10007 [0] 20).begin.add k).idx ≤
        (detail.make_prefetcher_context 8 0 10007 [0] 20).range_size) ∧
    (∃ r, (loop_n_prefetching
          (detail.make_prefetcher_context 8 0 10007 [0] 20).begin
          (toSizeT ((detail.prefetcher_context.end
              (detail.make_prefetcher_context 8 0 10007 [0] 20)).diff
            (detail.make_prefetcher_context 8 0 10007 [0] 20).begin)) noopAt
          World.start).1 = .normal r ∧
      r.idx ≤ (detail.make_prefetcher_context 8 0 10007 [0] 20).range_size) :=
  context_iterators_stay_within_range 8 0 10007 20 [0] noopAt World.start
    (fun _ _ _ => rfl) (by decide)

/-- C26, as stated, fails: with chunks of 2 the iterators at the logical
indices 1 and 0 have `1 / 2 = 0 / 2`, and their difference is 0, yet they do
not compare equal: `operator==` compares the logical indices themselves. -/
theorem same_chunk_iterators_are_not_equal :
    (itAt 2 7 1).chunk_size = (itAt 2 7 0).chunk_size ∧ 0 < (itAt 2 7 1).chunk_size ∧
    (itAt 2 7 1).idx / (itAt 2 7 1).chunk_size =
      (itAt 2 7 0).idx / (itAt 2 7 0).chunk_size ∧
    (itAt 2 7 1).eq (itAt 2 7 0) = false ∧
    (itAt 2 7 1).diff (itAt 2 7 0) = 0 := by
  decide

/-- C26, amended. Two prefetching iterators `a`, `b` with the same
`chunk_size > 0` compare equal exactly when their logical indices are equal;
iterators that compare equal have difference 0; when `b.idx ≤ a.idx`,
`operator-` returns the difference of the logical indices divided by
`chunk_size`, which is 0 exactly when that difference is less than a chunk (so
a difference of 0 does not make the iterators equal). -/
theorem equality_is_by_index_difference_by_chunks (a b : detail.prefetching_iterator)
    (hc : 0 < a.chunk_size) (hsame : a.chunk_size = b.chunk_size)
    (ha : a.idx < SIZE_MOD) :
    (a.eq b = true ↔ a.idx = b.idx) ∧
    (a.eq b = true → a.diff b = 0) ∧
    (b.idx ≤ a.idx → a.diff b = toSigned ((a.idx - b.idx) / a.chunk_size)) ∧
    (b.idx ≤ a.idx → (a.diff b = 0 ↔ a.idx - b.idx < b.chunk_size)) := by
  have hd : b.idx ≤ a.idx → a.diff b = toSigned ((a.idx - b.idx) / a.chunk_size) := by
    intro hba
    simp only [detail.prefetching_iterator.diff]
    congr 2
    rw [SIZE_MOD_eq] at ha ⊢
    omega
  refine ⟨by simp [detail.prefetching_iterator.eq], ?_, hd, ?_⟩
  · intro h
    have hab : a.idx = b.idx := by simpa [detail.prefetching_iterator.eq] using h
    rw [hd (Nat.le_of_eq hab.symm), hab, Nat.sub_self, Nat.zero_div]
    decide
  · intro hba
    rw [hd hba, ← hsame]
    have hq : (a.idx - b.idx) / a.chunk_size < SIZE_MOD :=
      Nat.lt_of_le_of_lt (Nat.div_le_self _ _) (Nat.lt_of_le_of_lt (Nat.sub_le _ _) ha)
    have hz : toSigned ((a.idx - b.idx) / a.chunk_size) = 0 ↔
        (a.idx - b.idx) / a.chunk_size = 0 := by
      simp only [toSigned, SIZE_BITS]
      rw [SIZE_MOD_eq] at hq ⊢
      split <;> omega
    rw [hz]
    exact Nat.div_eq_zero_iff hc

/-- C26, amended, at a concrete input: with chunks of 2, the iterators at the
indices 6 and 2 are two chunks apart. -/
theorem equality_is_by_index_difference_by_chunks_witness :
    ((itAt 2 7 6).eq (itAt 2 7 2) = true ↔ (itAt 2 7 6).idx = (itAt 2 7 2).idx) ∧
    ((itAt 2 7 6).eq (itAt 2 7 2) = true → (itAt 2 7 6).diff (itAt 2 7 2) = 0) ∧
    ((itAt 2 7 2).idx ≤ (itAt 2 7 6).idx →
      (itAt 2 7 6).diff (itAt 2 7 2) = toSigned ((6 - 2) / 2)) ∧
    ((itAt 2 7 2).idx ≤ (itAt 2 7 6).idx →
      ((itAt 2 7 6).diff (itAt 2 7 2) = 0 ↔ 6 - 2 < 2)) :=
  equality_is_by_index_difference_by_chunks (itAt 2 7 6) (itAt 2 7 2) (by decide) rfl
    (by decide)


/-! ## Lemmas relating the kernels to one another -/

/-- Stepping by chunks of 2 from an even logical index never reaches the odd
index 7: the bound-driven loop runs out of any fuel. -/
theorem loop_even_steps_never_reach_7 (last : detail.prefetching_iterator)
    (hlast : last.idx = 7) (fuel : Nat) :
    ∀ (it : detail.prefetching_iterator) (w : World Unit (Call detail.prefetching_iterator)),
    it.chunk_size = 2 → it.idx % 2 = 0 →
    detail.loop.call detail.prefetchOps noopIt fuel it last w = none := by
  induction fuel with
  | zero => intro it w _ _; rfl
  | succ fuel ih =>
    intro it w hc he
    have hne : detail.prefetchOps.ne it last = true := by
      simp only [detail.prefetchOps, detail.prefetching_iterator.ne, hlast, bne_iff_ne]
      omega
    rw [detail.loop.call]
    simp only [hne, if_true, noopIt]
    apply ih
    · exact hc
    · show (it.idx + it.chunk_size) % SIZE_MOD % 2 = 0
      rw [hc, SIZE_MOD_eq]
      omega

/-- Over a range of length `count`, the bound-driven `try` block does what the
count-driven one does. -/
theorem try_block_eq_try_block_n {ε σ Iter : Type} (ops : IterOps Iter)
    (f : Callback ε σ Iter) (count : Nat) :
    ∀ (fuel : Nat) (it last : Iter) (w : World σ (Call Iter)),
    (∀ k, k < count → ops.ne (ops.advance k it) last = true) →
    ops.ne (ops.advance count it) last = false →
    count < fuel →
    detail.loop_with_cleanup.try_block ops f fuel it last w =
      some (detail.loop_with_cleanup_n.try_block ops f it count w) := by
  induction count with
  | zero =>
    intro fuel it last w _ h2 hfuel
    obtain ⟨fuel, rfl⟩ : ∃ g, fuel = g + 1 := ⟨fuel - 1, by omega⟩
    have h2' : ops.ne it last = false := h2
    simp [detail.loop_with_cleanup.try_block, detail.loop_with_cleanup_n.try_block, h2']
  | succ count ih =>
    intro fuel it last w h1 h2 hfuel
    obtain ⟨fuel, rfl⟩ : ∃ g, fuel = g + 1 := ⟨fuel - 1, by omega⟩
    have hne : ops.ne it last = true := h1 0 (by omega)
    rw [detail.loop_with_cleanup.try_block, detail.loop_with_cleanup_n.try_block]
    simp only [hne, if_true]
    cases hres : (f it w.tok w.user).result with
    | raised e => rfl
    | normal u =>
      exact ih fuel (ops.next it) last _ (fun k hk => h1 (k + 1) (by omega)) h2 (by omega)

/-- The count-driven `try` block is left at one of the positions `0 .. count`. -/
theorem try_block_n_position {ε σ Iter : Type} (ops : IterOps Iter)
    (f : Callback ε σ Iter) (count : Nat) : ∀ (it : Iter) (w : World σ (Call Iter)),
    ∃ m, m ≤ count ∧
      (detail.loop_with_cleanup_n.try_block ops f it count w).2.1 = ops.advance m it := by
  induction count with
  | zero => intro it w; exact ⟨0, Nat.le_refl _, rfl⟩
  | succ count ih =>
    intro it w
    rw [detail.loop_with_cleanup_n.try_block]
    cases hres : (f it w.tok w.user).result with
    | raised e => exact ⟨0, by omega, rfl⟩
    | normal u =>
      obtain ⟨m, hm, h⟩ := ih (ops.next it) (w.after (.f it) (f it w.tok w.user))
      exact ⟨m + 1, by omega, h⟩

/-- The rollback loop over `m` distinct positions ends within `m + 1` units of
fuel, whatever `cleanup` does. -/
theorem cleanup_loop_isSome {ε σ κ Iter : Type} (ops : IterOps Iter) (ev : Iter → κ)
    (cleanup : Callback ε σ Iter) (m : Nat) :
    ∀ (fuel : Nat) (base it : Iter) (w : World σ κ),
    (∀ k, k < m → ops.ne (ops.advance k base) it = true) →
    ops.ne (ops.advance m base) it = false →
    m < fuel →
    ∃ r, detail.cleanup_loop ops ev cleanup fuel base it w = some r := by
  induction m with
  | zero =>
    intro fuel base it w _ h2 hfuel
    obtain ⟨fuel, rfl⟩ : ∃ g, fuel = g + 1 := ⟨fuel - 1, by omega⟩
    have h2' : ops.ne base it = false := h2
    exact ⟨(none, w), by simp [detail.cleanup_loop, h2']⟩
  | succ m ih =>
    intro fuel base it w h1 h2 hfuel
    obtain ⟨fuel, rfl⟩ : ∃ g, fuel = g + 1 := ⟨fuel - 1, by omega⟩
    have hne : ops.ne base it = true := h1 0 (by omega)
    rw [detail.cleanup_loop]
    simp only [hne, if_true]
    cases hres : (cleanup base w.tok w.user).result with
    | raised e => exact ⟨_, rfl⟩
    | normal u =>
      exact ih fuel (ops.next base) it _ (fun k hk => h1 (k + 1) (by omega)) h2 (by omega)

/-- When `f` never raises, the `try` block of `loop_with_cleanup` is the plain
loop. -/
theorem try_block_eq_loop {ε σ Iter : Type} (ops : IterOps Iter) (f : Callback ε σ Iter)
    (hf : NeverRaises f) (last : Iter) (fuel : Nat) :
    ∀ (it : Iter) (w : World σ (Call Iter)),
    (detail.loop_with_cleanup.try_block ops f fuel it last w = none ∧
      detail.loop.call ops f fuel it last w = none) ∨
    ∃ it' w', detail.loop_with_cleanup.try_block ops f fuel it last w =
        some (none, it', w') ∧
      detail.loop.call ops f fuel it last w = some (.normal it', w') := by
  induction fuel with
  | zero => intro it w; exact Or.inl ⟨rfl, rfl⟩
  | succ fuel ih =>
    intro it w
    rw [detail.loop_with_cleanup.try_block, detail.loop.call]
    cases hne : ops.ne it last with
    | false => exact Or.inr ⟨it, w, by simp, by simp⟩
    | true =>
      simp only [if_true, hf it w.tok w.user]
      exact ih (ops.next it) _

/-- The plain loop over a range of length `n` ends within `n + 1` units of
fuel, whatever `f` does. -/
theorem loop_call_isSome {ε σ Iter : Type} (ops : IterOps Iter) (f : Callback ε σ Iter)
    (n : Nat) : ∀ (fuel : Nat) (it last : Iter) (w : World σ (Call Iter)),
    (∀ k, k < n → ops.ne (ops.advance k it) last = true) →
    ops.ne (ops.advance n it) last = false →
    n < fuel →
    ∃ r, detail.loop.call ops f fuel it last w = some r := by
  induction n with
  | zero =>
    intro fuel it last w _ h2 hfuel
    obtain ⟨fuel, rfl⟩ : ∃ g, fuel = g + 1 := ⟨fuel - 1, by omega⟩
    have h2' : ops.ne it last = false := h2
    exact ⟨(.normal it, w), by simp [detail.loop.call, h2']⟩
  | succ n ih =>
    intro fuel it last w h1 h2 hfuel
    obtain ⟨fuel, rfl⟩ : ∃ g, fuel = g + 1 := ⟨fuel - 1, by omega⟩
    have hne : ops.ne it last = true := h1 0 (by omega)
    rw [detail.loop.call]
    simp only [hne, if_true]
    cases hres : (f it w.tok w.user).result with
    | raised e => exact ⟨_, rfl⟩
    | normal u =>
      exact ih fuel (ops.next it) last _ (fun k hk => h1 (k + 1) (by omega)) h2 (by omega)

/-- An invocation of a callback that does not cancel leaves the token as it
was. -/
theorem after_tok_of_not_cancel {ε σ κ α : Type} (w : World σ κ) (ev : κ)
    (o : Outcome ε σ α) (h : o.cancel = false) : (w.after ev o).tok = w.tok := by
  simp [World.after, h]

/-- With a token that is never cancelled, the token overload of the plain loop
is the plain loop, and the token is left as it was. -/
theorem loop_call_tok_eq {ε σ Iter : Type} (ops : IterOps Iter) (f : Callback ε σ Iter)
    (hnc : NeverCancels f) (last : Iter) (fuel : Nat) :
    ∀ (it : Iter) (w : World σ (Call Iter)), w.tok.was_cancelled = false →
    detail.loop.call_tok ops f fuel it last w = detail.loop.call ops f fuel it last w ∧
    ∀ r, detail.loop.call ops f fuel it last w = some r → r.2.tok = w.tok := by
  induction fuel with
  | zero => intro it w _; exact ⟨rfl, fun r h => by simp [detail.loop.call] at h⟩
  | succ fuel ih =>
    intro it w h0
    have ht := after_tok_of_not_cancel w (Call.f it) (f it w.tok w.user) (hnc _ _ _)
    rw [detail.loop.call_tok, detail.loop.call]
    cases hne : ops.ne it last with
    | false =>
      refine ⟨by simp, ?_⟩
      intro r h
      simp at h
      rw [← h]
    | true =>
      simp only [if_true, h0, Bool.false_eq_true, if_false]
      cases hres : (f it w.tok w.user).result with
      | raised e =>
        refine ⟨rfl, ?_⟩
        intro r h
        simp at h
        rw [← h]
        exact ht
      | normal u =>
        obtain ⟨h1, h2⟩ := ih (ops.next it) (w.after (.f it) (f it w.tok w.user))
          (by rw [ht]; exact h0)
        refine ⟨h1, ?_⟩
        intro r h
        rw [h2 r h, ht]

/-- With a token that is never cancelled, the token overload of the generic
count-driven loop is the token-free one, and the token is left as it was. -/
theorem loop_n_call_tok_eq {ε σ Iter : Type} (ops : IterOps Iter) (f : Callback ε σ Iter)
    (hnc : NeverCancels f) (n : Nat) :
    ∀ (it : Iter) (w : World σ (Call Iter)), w.tok.was_cancelled = false →
    detail.loop_n.call_tok ops f it n w = detail.loop_n.call ops f it n w ∧
    (detail.loop_n.call ops f it n w).2.tok = w.tok := by
  induction n with
  | zero => intro it w _; exact ⟨rfl, rfl⟩
  | succ n ih =>
    intro it w h0
    have ht := after_tok_of_not_cancel w (Call.f it) (f it w.tok w.user) (hnc _ _ _)
    rw [detail.loop_n.call_tok, detail.loop_n.call]
    simp only [h0, Bool.false_eq_true, if_false]
    cases hres : (f it w.tok w.user).result with
    | raised e => exact ⟨rfl, ht⟩
    | normal u =>
      obtain ⟨h1, h2⟩ := ih (ops.next it) (w.after (.f it) (f it w.tok w.user))
        (by rw [ht]; exact h0)
      exact ⟨h1, by rw [h2, ht]⟩


/-! ## The claims relating the kernels to one another -/

/-- C27, on the code: over `[0, 7)` with chunks of 2, `loop(ctx.begin(),
ctx.end(), f)` steps through the even logical indices and never meets
`ctx.end()` at index 7: it does not end, whatever the fuel.  (Over `[0, 16)` with
chunks of 8, where the chunk size divides the range size, it ends after two
steps at an iterator equal to `ctx.end()`.) -/
theorem loop_over_context_misses_end :
    ctx_7.chunk_size = 2 ∧ ctx_7.range_size = 7 ∧
    (∀ fuel, loop detail.prefetchOps fuel ctx_7.begin (detail.prefetcher_context.end ctx_7)
      noopIt World.start = none) ∧
    (∃ r w', loop detail.prefetchOps 3 ctx_small.begin
        (detail.prefetcher_context.end ctx_small) noopIt World.start =
        some (.normal r, w') ∧
      r.eq (detail.prefetcher_context.end ctx_small) = true) := by
  refine ⟨by decide, by decide, ?_, ⟨_, _, rfl, by decide⟩⟩
  intro fuel
  exact loop_even_steps_never_reach_7 _ (by decide) fuel ctx_7.begin World.start
    (by decide) (by decide)

/-- C28. `loop_with_cleanup_n(it, count, f, cleanup)` is the count-driven
equivalent of `loop_with_cleanup(it, last, f, cleanup)` when `[it, last)` is a
range of length `count` (`last` is `it + count`): for every `f` and `cleanup`
the two calls end, with the same outcome (iterator returned or failure) and
the same world, hence the same sequences of `f` calls and of `cleanup` calls. -/
theorem loop_with_cleanup_n_is_count_driven_loop_with_cleanup {ε σ Iter : Type}
    (ops : IterOps Iter) (f cleanup : Callback ε σ Iter) (it last : Iter)
    (count fuel : Nat) (w : World σ (Call Iter))
    (hr : IsRange ops it last count) (hfuel : count < fuel) :
    loop_with_cleanup_n ops fuel it count f cleanup w =
      loop_with_cleanup ops fuel it last f cleanup w ∧
    ∃ r, loop_with_cleanup ops fuel it last f cleanup w = some r := by
  have htry := try_block_eq_try_block_n ops f count fuel it last w hr.1 hr.2.1 hfuel
  have heq : loop_with_cleanup_n ops fuel it count f cleanup w =
      loop_with_cleanup ops fuel it last f cleanup w := by
    simp only [loop_with_cleanup_n, loop_with_cleanup, detail.loop_with_cleanup_n.call,
      detail.loop_with_cleanup.call, htry]
    rcases detail.loop_with_cleanup_n.try_block ops f it count w with ⟨oe, it', w'⟩
    cases oe <;> rfl
  refine ⟨heq, ?_⟩
  rw [← heq]
  obtain ⟨m, hm, hpos⟩ := try_block_n_position ops f count it w
  simp only [loop_with_cleanup_n, detail.loop_with_cleanup_n.call]
  rcases hres : detail.loop_with_cleanup_n.try_block ops f it count w with ⟨oe, it', w'⟩
  rw [hres] at hpos
  cases oe with
  | none => exact ⟨_, rfl⟩
  | some e =>
    obtain ⟨hdiff, hsame⟩ := isRange_prefix ops it last count m hr hm
    have hit : it' = ops.advance m it := hpos
    obtain ⟨r, hr'⟩ := cleanup_loop_isSome ops Call.cleanup cleanup m fuel it it' w'
      (by rw [hit]; exact hdiff) (by rw [hit]; exact hsame) (by omega)
    simp only [detail.catch_all, hr']
    rcases r with ⟨oe', w''⟩
    cases oe' with
    | none => exact ⟨_, rfl⟩
    | some e' => exact ⟨_, rfl⟩

/-- C28, at a concrete input: four positions from 0, `f` raises at position 2
and `cleanup` raises at position 1. -/
theorem loop_with_cleanup_n_is_count_driven_loop_with_cleanup_witness :
    loop_with_cleanup_n natOps 5 0 4 (raiseAt 2 "boom") (raiseAt 1 "oops") World.start =
      loop_with_cleanup natOps 5 0 (0 + 4) (raiseAt 2 "boom") (raiseAt 1 "oops")
        World.start ∧
    ∃ r, loop_with_cleanup natOps 5 0 (0 + 4) (raiseAt 2 "boom") (raiseAt 1 "oops")
      World.start = some r :=
  loop_with_cleanup_n_is_count_driven_loop_with_cleanup natOps (raiseAt 2 "boom")
    (raiseAt 1 "oops") 0 (0 + 4) 4 5 World.start (natOps_isRange 0 4) (by decide)

/-- C29. When `f` never raises, `loop_with_cleanup(it, last, f, cleanup)` does
what `loop(it, last, f)` does, with the same result and the same world; over a
range of length `n` it returns position `n`, which compares equal to `last`,
and the invocations made are `f` on the positions `0 .. n-1`: `cleanup` is
invoked on no position. -/
theorem loop_with_cleanup_is_loop_when_f_never_raises {ε σ Iter : Type}
    (ops : IterOps Iter) (f cleanup : Callback ε σ Iter) (it last : Iter)
    (n fuel : Nat) (w : World σ (Call Iter))
    (hf : NeverRaises f) (hr : IsRange ops it last n) (hfuel : n < fuel) :
    (∀ (fuel0 : Nat) (it0 last0 : Iter) (w0 : World σ (Call Iter)),
      loop_with_cleanup ops fuel0 it0 last0 f cleanup w0 = loop ops fuel0 it0 last0 f w0) ∧
    ∃ w', loop_with_cleanup ops fuel it last f cleanup w =
        some (.normal (ops.advance n it), w') ∧
      ops.ne (ops.advance n it) last = false ∧
      w'.trace = w.trace ++ calls ops Call.f it n := by
  have hall : ∀ (fuel0 : Nat) (it0 last0 : Iter) (w0 : World σ (Call Iter)),
      loop_with_cleanup ops fuel0 it0 last0 f cleanup w0 =
        loop ops fuel0 it0 last0 f w0 := by
    intro fuel0 it0 last0 w0
    simp only [loop_with_cleanup, loop, detail.loop_with_cleanup.call]
    rcases try_block_eq_loop ops f hf last0 fuel0 it0 w0 with ⟨h1, h2⟩ | ⟨it', w', h1, h2⟩
    · rw [h1, h2]
    · rw [h1, h2]
  refine ⟨hall, runCalls ops Call.f f n it w, ?_, hr.2.1, runCalls_trace _ _ _ _ _ _⟩
  rw [hall]
  exact loop_call_completes ops f n fuel it last w hr.1 hr.2.1 (fun k _ => hf _ _ _) hfuel

/-- C29, at a concrete input: the range `[3, 7)`; the cleanup callback would
raise if it were invoked. -/
theorem loop_with_cleanup_is_loop_when_f_never_raises_witness :
    (∀ (fuel0 : Nat) (it0 last0 : Nat) (w0 : World Unit (Call Nat)),
      loop_with_cleanup natOps fuel0 it0 last0 noop (raiseAt 3 "oops") w0 =
        loop natOps fuel0 it0 last0 noop w0) ∧
    ∃ w', loop_with_cleanup natOps 5 3 7 noop (raiseAt 3 "oops") World.start =
        some (.normal 7, w') ∧
      natOps.ne 7 7 = false ∧ w'.trace = [.f 3, .f 4, .f 5, .f 6] :=
  loop_with_cleanup_is_loop_when_f_never_raises natOps noop (raiseAt 3 "oops") 3 (3 + 4) 4 5
    World.start (by intro p t s; rfl) (natOps_isRange 3 4) (by decide)

/-- C30. With a token that is not cancelled on entry and a callback that never
cancels it, the token overloads of `loop` and of generic `loop_n` do what the
token-free overloads do (same calls of `f`, same result, same world), they end
whenever the range has a length within the fuel, and the token on exit is the
token on entry: the kernels never call `cancel()`. -/
theorem token_overloads_agree_when_never_cancelled {ε σ Iter : Type}
    (ops : IterOps Iter) (f : Callback ε σ Iter) (begin_ end_ it : Iter)
    (n count fuel : Nat) (w : World σ (Call Iter))
    (h0 : w.tok.was_cancelled = false) (hnc : NeverCancels f)
    (hr : IsRange ops begin_ end_ n) (hfuel : n < fuel) :
    loop_tok ops fuel begin_ end_ f w = loop ops fuel begin_ end_ f w ∧
    (∃ r, loop_tok ops fuel begin_ end_ f w = some r ∧ r.2.tok = w.tok) ∧
    loop_n_tok ops it count f w = loop_n ops it count f w ∧
    (loop_n_tok ops it count f w).2.tok = w.tok := by
  obtain ⟨h1, h2⟩ := loop_call_tok_eq ops f hnc end_ fuel begin_ w h0
  obtain ⟨h3, h4⟩ := loop_n_call_tok_eq ops f hnc count it w h0
  obtain ⟨r, hsome⟩ := loop_call_isSome ops f n fuel begin_ end_ w hr.1 hr.2.1 hfuel
  refine ⟨h1, ⟨r, ?_, h2 r hsome⟩, h3, ?_⟩
  · show detail.loop.call_tok ops f fuel begin_ end_ w = some r
    rw [h1]
    exact hsome
  · show (detail.loop_n.call_tok ops f it count w).2.tok = w.tok
    rw [h3]
    exact h4

/-- C30, at a concrete input: the range `[0, 4)` and a count of 4 from 0, with
a callback that raises at position 2 and never cancels. -/
theorem token_overloads_agree_when_never_cancelled_witness :
    loop_tok natOps 5 0 (0 + 4) (raiseAt 2 "boom") World.start =
      loop natOps 5 0 (0 + 4) (raiseAt 2 "boom") World.start ∧
    (∃ r, loop_tok natOps 5 0 (0 + 4) (raiseAt 2 "boom") World.start = some r ∧
      r.2.tok = (World.start : World Unit (Call Nat)).tok) ∧
    loop_n_tok natOps 0 4 (raiseAt 2 "boom") World.start =
      loop_n natOps 0 4 (raiseAt 2 "boom") World.start ∧
    (loop_n_tok natOps 0 4 (raiseAt 2 "boom") World.start).2.tok =
      (World.start : World Unit (Call Nat)).tok :=
  token_overloads_agree_when_never_cancelled natOps (raiseAt 2 "boom") 0 (0 + 4) 0 4 4 5
    World.start rfl (by intro p t s; rfl) (natOps_isRange 0 4) (by decide)

/-! ## Lemmas on the l.hpp kernel and on splitting -/

/-- The loop of the l.hpp kernel is the loop of the loop.hpp kernel: only the
count of chunks differs. -/
theorem l_loop_eq_call {ε σ : Type} (f : Callback ε σ Int) (cnt : Nat) :
    ∀ (it : detail.prefetching_iterator) (w : World σ PCall),
    l.loop_n_prefetching.loop f it cnt w = detail.loop_n_prefetching.call f it cnt w := by
  induction cnt with
  | zero => intro it w; rfl
  | succ cnt ih =>
    intro it w
    have hmin : (if it.range_size < (it.idx + it.chunk_size) % SIZE_MOD then it.range_size
        else (it.idx + it.chunk_size) % SIZE_MOD) =
        min it.range_size ((it.idx + it.chunk_size) % SIZE_MOD) := by
      split <;> omega
    rw [l.loop_n_prefetching.loop, detail.loop_n_prefetching.call, hmin]
    rcases detail.loop_n_prefetching.inner f
      (min it.range_size ((it.idx + it.chunk_size) % SIZE_MOD) - it.idx) it.idx it.base w
      with ⟨oe, j, w1⟩
    cases oe with
    | some e => rfl
    | none => exact ih it.next _

/-- The chunked specialisation of l.hpp, called directly with `count`, runs
`count + 1` chunks of the loop.hpp kernel. -/
theorem l_call_eq_call_succ {ε σ : Type} (f : Callback ε σ Int)
    (it : detail.prefetching_iterator) (count : Nat) (w : World σ PCall)
    (h : count + 1 < SIZE_MOD) :
    l.loop_n_prefetching.call f it count w =
      detail.loop_n_prefetching.call f it (count + 1) w := by
  rw [l.loop_n_prefetching.call, Nat.mod_eq_of_lt h, l_loop_eq_call]

/-- Running `a + b` chunks is running `a` chunks and then, unless `f` raised,
`b` chunks from where the first run ended. -/
theorem call_add {ε σ : Type} (f : Callback ε σ Int) (b : Nat) (a : Nat) :
    ∀ (it : detail.prefetching_iterator) (w : World σ PCall),
    detail.loop_n_prefetching.call f it (a + b) w =
      match detail.loop_n_prefetching.call f it a w with
      | (.normal _, w') =>
        detail.loop_n_prefetching.call f (detail.prefetching_iterator.advance a it) b w'
      | (.raised e, w') => (.raised e, w') := by
  induction a with
  | zero =>
    intro it w
    simp [detail.loop_n_prefetching.call, detail.prefetching_iterator.advance]
  | succ a ih =>
    intro it w
    rw [Nat.succ_add, detail.loop_n_prefetching.call, detail.loop_n_prefetching.call]
    rcases detail.loop_n_prefetching.inner f
      (min it.range_size ((it.idx + it.chunk_size) % SIZE_MOD) - it.idx) it.idx it.base w
      with ⟨oe, j, w1⟩
    cases oe with
    | some e => rfl
    | none => exact ih it.next _

/-- When the chunked kernel returns normally from `a` chunks, it returns `it`
after `a` steps. -/
theorem call_normal_iterator {ε σ : Type} (f : Callback ε σ Int) (a : Nat) :
    ∀ (it r : detail.prefetching_iterator) (w w' : World σ PCall),
    detail.loop_n_prefetching.call f it a w = (.normal r, w') →
    r = detail.prefetching_iterator.advance a it := by
  induction a with
  | zero =>
    intro it r w w' h
    simp only [detail.loop_n_prefetching.call, Prod.mk.injEq, Completion.normal.injEq] at h
    exact h.1.symm
  | succ a ih =>
    intro it r w w' h
    rw [detail.loop_n_prefetching.call] at h
    rcases hin : detail.loop_n_prefetching.inner f
      (min it.range_size ((it.idx + it.chunk_size) % SIZE_MOD) - it.idx) it.idx it.base w
      with ⟨oe, j, w1⟩
    rw [hin] at h
    cases oe with
    | some e => simp at h
    | none => exact ih it.next r _ w' h

/-- The chunked specialisation of l.hpp, called directly at logical index 0
with `count = floor(N / chunk_size)`, `range_size = N` and `chunk_size > 0` (and
`N + chunk_size` within `std::size_t`), for a callback that never raises: `f`
is invoked on (the buffer position of) every index of `[0, N)`, once, in
increasing order, and on no other index. -/
theorem l_specialisation_visits_whole_range {ε σ : Type} (f : Callback ε σ Int)
    (it : detail.prefetching_iterator) (w : World σ PCall)
    (hf : NeverRaises f) (hidx : it.idx = 0) (hc : 0 < it.chunk_size)
    (hno : it.range_size + it.chunk_size < SIZE_MOD) :
    (∃ r, (l.loop_n_prefetching.call f it (it.range_size / it.chunk_size) w).1 =
      .normal r) ∧
    fPositions (l.loop_n_prefetching.call f it (it.range_size / it.chunk_size) w).2.trace =
      fPositions w.trace ++ (List.range' 0 it.range_size).map (posOf it) := by
  have hq : it.range_size / it.chunk_size * it.chunk_size ≤ it.range_size :=
    Nat.div_mul_le_self _ _
  have hq' : it.range_size < (it.range_size / it.chunk_size + 1) * it.chunk_size := by
    have h1 := Nat.div_add_mod it.range_size it.chunk_size
    have h2 := Nat.mod_lt it.range_size hc
    rw [Nat.succ_mul, Nat.mul_comm]
    omega
  have hqle : it.range_size / it.chunk_size ≤ it.range_size := Nat.div_le_self _ _
  have hsucc : (it.range_size / it.chunk_size + 1) * it.chunk_size ≤
      it.range_size + it.chunk_size := by
    rw [Nat.succ_mul]
    omega
  have hcount : it.range_size / it.chunk_size + 1 < SIZE_MOD := by omega
  obtain ⟨w', h1, h2⟩ := call_visits f hf it (it.range_size / it.chunk_size + 1) w
    (by rw [hidx]; omega)
  rw [l_call_eq_call_succ f it _ w hcount, h1]
  refine ⟨⟨_, rfl⟩, ?_⟩
  rw [h2, chunkIndices_flatten, hidx]
  congr 3
  omega

/-- The chunked specialisation of l.hpp, called directly, runs one chunk more
than `count`: with chunks of 2 from index 0, a count of 1 consumes the indices
`0 .. 3` and returns the iterator at index 4, and a count of 0 consumes the
indices `0 .. 1` and returns the iterator at index 2. -/
theorem l_specialisation_runs_one_more_chunk :
    (l.loop_n_prefetching.call noopAt (itAt 2 7 0) 1 World.start).1 =
      .normal (itAt 2 7 4) ∧
    fPositions (l.loop_n_prefetching.call noopAt (itAt 2 7 0) 1 World.start).2.trace =
      [0, 1, 2, 3] ∧
    (l.loop_n_prefetching.call noopAt (itAt 2 7 0) 0 World.start).1 =
      .normal (itAt 2 7 2) ∧
    fPositions (l.loop_n_prefetching.call noopAt (itAt 2 7 0) 0 World.start).2.trace =
      [0, 1] :=
  ⟨rfl, by decide, rfl, by decide⟩

/-! ## The claims on the `loop_n` of l.hpp, splitting and the remaining operators -/

/-- C34. Splitting is sound for the chunked `loop_n` of loop.hpp: for a
well-formed iterator and counts `a` and `b`, with the offset `a * chunk_size` a
`difference_type` value (below `2^63`), `loop_n(it, a + b, f)` does what
`loop_n(it, a, f)` followed (unless `f` raised) by `loop_n(it + a, b, f)` does:
same result, hence the same iterator returned, and same world, hence the same
sequence of calls of `f`; and the first call, when it returns, returns
`it + a`. -/
theorem chunked_loop_n_splits {ε σ : Type} (f : Callback ε σ Int)
    (it : detail.prefetching_iterator) (a b : Nat) (w : World σ PCall)
    (hidx : it.idx < SIZE_MOD) (ha : a < 2 ^ (SIZE_BITS - 1))
    (hprod : a * it.chunk_size < 2 ^ (SIZE_BITS - 1)) :
    loop_n_prefetching it (a + b) f w =
      (match loop_n_prefetching it a f w with
      | (.normal _, w') => loop_n_prefetching (it.add (a : Int)) b f w'
      | (.raised e, w') => (.raised e, w')) ∧
    (∀ r w', loop_n_prefetching it a f w = (.normal r, w') → r = it.add (a : Int)) := by
  have halt : a < SIZE_MOD := by
    simp only [SIZE_BITS] at ha
    rw [SIZE_MOD_eq]
    omega
  have hadd := add_eq_advance it a hidx halt hprod
  refine ⟨?_, ?_⟩
  · simp only [loop_n_prefetching]
    rw [hadd]
    exact call_add f b a it w
  · intro r w' h
    rw [hadd]
    exact call_normal_iterator f a it r w w' h

/-- C34, at a concrete input: over 7 elements with chunks of 2, three chunks
from index 0 split as one chunk and two chunks. -/
theorem chunked_loop_n_splits_witness :
    loop_n_prefetching (itAt 2 7 0) (1 + 2) noopAt World.start =
      (match loop_n_prefetching (itAt 2 7 0) 1 noopAt World.start with
      | (.normal _, w') => loop_n_prefetching ((itAt 2 7 0).add ((1 : Nat) : Int)) 2 noopAt w'
      | (.raised e, w') => (.raised e, w')) ∧
    (∀ r w', loop_n_prefetching (itAt 2 7 0) 1 noopAt World.start = (.normal r, w') →
      r = (itAt 2 7 0).add ((1 : Nat) : Int)) :=
  chunked_loop_n_splits noopAt (itAt 2 7 0) 1 2 World.start (by decide) (by decide)
    (by decide)

/-- C35. Difference undoes addition: for an iterator with `chunk_size > 0` and
a count `n ≥ 0` (a `difference_type`) such that `it.idx + n * chunk_size` does
not overflow, `(it + n) - it = n`. -/
theorem difference_undoes_addition (it : detail.prefetching_iterator) (n : Nat)
    (hc : 0 < it.chunk_size) (hn : n < 2 ^ (SIZE_BITS - 1))
    (hno : it.idx + n * it.chunk_size < SIZE_MOD) :
    (it.add (n : Int)).diff it = (n : Int) := by
  have hnlt : n < SIZE_MOD := by
    simp only [SIZE_BITS] at hn
    rw [SIZE_MOD_eq]
    omega
  have hidx : (it.add (n : Int)).idx = it.idx + n * it.chunk_size := by
    simp only [detail.prefetching_iterator.add, toSizeT_natCast n hnlt, Nat.add_mod_mod]
    exact Nat.mod_eq_of_lt hno
  have hcs : (it.add (n : Int)).chunk_size = it.chunk_size := rfl
  have hsub : (it.idx + n * it.chunk_size + SIZE_MOD - it.idx) % SIZE_MOD =
      n * it.chunk_size := by
    have : it.idx + n * it.chunk_size + SIZE_MOD - it.idx = n * it.chunk_size + SIZE_MOD := by
      omega
    rw [this, Nat.add_mod_right]
    exact Nat.mod_eq_of_lt (by omega)
  simp only [detail.prefetching_iterator.diff, hidx, hcs, hsub,
    Nat.mul_div_cancel n hc, toSigned, hn, if_true]

/-- C35, at a concrete input: three steps from index 4 with chunks of 2. -/
theorem difference_undoes_addition_witness :
    ((itAt 2 20 4).add ((3 : Nat) : Int)).diff (itAt 2 20 4) = ((3 : Nat) : Int) :=
  difference_undoes_addition (itAt 2 20 4) 3 (by decide) (by decide) (by decide)

/-- C36, on the code: `ctx.end()` has logical index `range_size` and its
back-iterator at offset `range_size - 1` (`it_end` is `range.end() - 1`): over
`[0, 7)` index 7 and offset 6.  Over `[0, 16)` with chunks of 8, `ctx.end() - 1`
and `ctx.begin() + 1` have the same logical index 8, with the back-iterator at
offset 7 for the first and 8 for the second. -/
theorem context_end_base_is_one_short :
    ctx_7.range_size = 7 ∧
    (detail.prefetcher_context.end ctx_7).idx = 7 ∧
    (detail.prefetcher_context.end ctx_7).base = 6 ∧
    ((detail.prefetcher_context.end ctx_small).sub 1).idx = 8 ∧
    (ctx_small.begin.add 1).idx = 8 ∧
    ((detail.prefetcher_context.end ctx_small).sub 1).base = 7 ∧
    (ctx_small.begin.add 1).base = 8 := by
  decide

/-- C37, on the code: the friend `operator-(difference_type, iterator)` never
returns, for every `lhs`, every iterator and every amount of fuel: its body
`return lhs - rhs;` is a call of itself.  (The friend `operator+`, whose body is
`return rhs + lhs;`, returns the iterator `rhs + lhs`.) -/
theorem friend_sub_never_returns :
    (∀ (fuel : Nat) (lhs : Int) (rhs : detail.prefetching_iterator),
      detail.prefetching_iterator.friend_sub fuel lhs rhs = none) ∧
    (∀ (lhs : Int) (rhs : detail.prefetching_iterator),
      detail.prefetching_iterator.friend_add lhs rhs = rhs.add lhs) := by
  refine ⟨?_, fun _ _ => rfl⟩
  intro fuel lhs rhs
  induction fuel with
  | zero => rfl
  | succ fuel ih => exact ih

end hpx.parallel.util
